import Mathlib

/-!
# Verification of the octomil-browser secure-aggregation and privacy pipeline

This file gives a shallow embedding in Lean 4 of the pure computational core of
`src/secure-aggregation.ts`, `src/privacy.ts` and the weight-extraction helpers
(`WeightExtractor.computeDelta` / `applyDelta`), and proves the specification
claims about them.

Modelling conventions:
* JavaScript integer arithmetic (exact on the values occurring here) is
  modelled by `Int`/`Nat`; the JS remainder operator `%` (and BigInt `%`),
  whose result takes the sign of the dividend, is modelled by `Int.tmod`.
* Float32 tensors are modelled as lists of exact numbers (`ℚ`, or `ℝ` where
  the source takes a square root); floating-point rounding is abstracted to
  exact arithmetic, so "equal within floating-point tolerance" becomes
  equality.
* A JS object used as a string-keyed map (`WeightMap`) is modelled as an
  association list `List (String × List ℚ)` in insertion order; `Map.get`
  becomes `List.lookup`.
* `crypto.getRandomValues` is modelled by an arbitrary stream
  `rand : Nat → Nat` of drawn 32-bit words, and HKDF `deriveBits` by an
  arbitrary function from the number of requested bits to the derived words.
-/

-- ---------------------------------------------------------------------------
-- Shamir secret sharing over GF(2^31 - 1)  (src/secure-aggregation.ts)
-- ---------------------------------------------------------------------------

/-- The field modulus of the source: `const PRIME = 2147483647` (= 2^31 - 1). -/
def PRIME : Int := 2147483647

/-- Loop body of `modPow`: `result` and `base` are the mutable locals, `exp`
the remaining exponent.  Mirrors

```js
while (exp > 0) {
  if (exp % 2 === 1) result = (result * base) % mod;
  exp = Math.floor(exp / 2);
  base = (base * base) % mod;
}
```
-/
def modPowAux (result base : Int) (exp : Nat) (m : Int) : Int :=
  if h : exp = 0 then result
  else
    modPowAux (if exp % 2 = 1 then (result * base).tmod m else result)
      ((base * base).tmod m) (exp / 2) m
termination_by exp
decreasing_by exact Nat.div_lt_self (Nat.pos_of_ne_zero h) (by norm_num)

/-- `modPow(base, exp, mod)` from the source; the exponent is a natural number
(every call site passes a non-negative integer). -/
def modPow (base : Int) (exp : Nat) (m : Int) : Int :=
  modPowAux 1 (base.tmod m) exp m

/-- `modInverse(a, mod) = modPow(a, mod - 2, mod)` from the source. -/
def modInverse (a m : Int) : Int :=
  modPow a (m - 2).toNat m

/-- `interface SecretShare { x: number; y: number }`. -/
structure SecretShare where
  x : Int
  y : Int
deriving DecidableEq, Repr

/-- Default share used to model the `!` non-null assertions on in-bounds
indexing (never actually reached in the proofs). -/
def shareDefault : SecretShare :=
  { x := 0, y := 0 }

/-- The polynomial-evaluation loop of `shamirSplit`:

```js
let y = 0;
for (let i = 0; i < coeffs.length; i++) {
  y = Number((BigInt(y) + BigInt(coeffs[i]) * BigInt(modPow(x, i, PRIME))) % BigInt(PRIME));
}
```
-/
def shamirEvalAux (coeffs : List Int) (x : Int) (i : Nat) (y : Int) : Int :=
  match coeffs with
  | [] => y
  | c :: rest => shamirEvalAux rest x (i + 1) ((y + c * modPow x i PRIME).tmod PRIME)

/-- The coefficient list built by `shamirSplit`: constant term `secret % PRIME`,
then `threshold - 1` random field elements `randomBytes[0] % PRIME` (the `i`-th
loop iteration draws the word `rand i`). -/
def shamirCoeffs (secret : Int) (threshold : Nat) (rand : Nat → Nat) : List Int :=
  secret.tmod PRIME ::
    (List.range (threshold - 1)).map (fun j => ((rand (j + 1) : Int)).tmod PRIME)

/-- `shamirSplit(secret, threshold, numShares)`: evaluates the random
polynomial at `x = 1..numShares`. -/
def shamirSplit (secret : Int) (threshold numShares : Nat) (rand : Nat → Nat) :
    List SecretShare :=
  (List.range numShares).map (fun k : Nat =>
    { x := (k : Int) + 1
      y := shamirEvalAux (shamirCoeffs secret threshold rand) ((k : Int) + 1) 0 0 })

/-- `shamirReconstruct(shares)`: Lagrange interpolation at 0, with all products
reduced by `% PRIME` exactly as in the source. -/
def shamirReconstruct (shares : List SecretShare) : Int :=
  (List.range shares.length).foldl
    (fun secret i =>
      let si := shares.getD i shareDefault
      let nd := (List.range shares.length).foldl
        (fun (nd : Int × Int) j =>
          if j = i then nd
          else
            let sj := shares.getD j shareDefault
            ((nd.1 * (PRIME - sj.x)).tmod PRIME,
             (nd.2 * ((si.x - sj.x + PRIME).tmod PRIME)).tmod PRIME))
        (1, 1)
      let lagrange := (nd.1 * modInverse nd.2 PRIME).tmod PRIME
      (secret + si.y * lagrange).tmod PRIME)
    0

/-- `class SecAggPlus` carries the fixed threshold. -/
structure SecAggPlus where
  threshold : Nat

/-- `splitSecret(secret, numPeers)` delegates to `shamirSplit` with the
instance threshold. -/
def SecAggPlus.splitSecret (sa : SecAggPlus) (secret : Int) (numPeers : Nat)
    (rand : Nat → Nat) : List SecretShare :=
  shamirSplit secret sa.threshold numPeers rand

/-- `reconstructSecret(shares)`: throws when fewer than `threshold` shares are
supplied, otherwise reconstructs from the first `threshold` shares.  The thrown
`Error` is modelled by `Except.error` with the exact message. -/
def SecAggPlus.reconstructSecret (sa : SecAggPlus) (shares : List SecretShare) :
    Except String Int :=
  if shares.length < sa.threshold then
    Except.error
      ("Need at least " ++ toString sa.threshold ++ " shares, got " ++
        toString shares.length ++ ".")
  else
    Except.ok (shamirReconstruct (List.take sa.threshold shares))

-- ---------------------------------------------------------------------------
-- Pairwise masking (src/secure-aggregation.ts, class SecureAggregation)
-- ---------------------------------------------------------------------------

/-- `createMask(secret, length)`.  The HKDF expansion of the shared secret is
abstracted by `derive`, mapping a number of requested bits to the list of
Float32 words read from the derived buffer (the Web Crypto call is
deterministic, so it is a function of its inputs); `dflt` models the `!`
assertion on indexing.  The element type is abstract because the claims do not
depend on the float values themselves. -/
def createMask {α : Type} (derive : Nat → List α) (dflt : α) (length : Nat) :
    List α :=
  let bitsNeeded := length * 4 * 8
  let source := derive (min bitsNeeded 8160)
  (List.range length).map (fun i => source.getD (i % source.length) dflt)

/-- `maskUpdate(delta, masks)`: copies each tensor and adds the registered mask
element-wise (`mask[i] ?? 0` guards a short mask). -/
def maskUpdate (delta : List (String × List ℚ)) (masks : List (String × List ℚ)) :
    List (String × List ℚ) :=
  delta.map (fun kv =>
    match List.lookup kv.1 masks with
    | some mask =>
        (kv.1, (List.range kv.2.length).map (fun i => kv.2.getD i 0 + mask.getD i 0))
    | none => (kv.1, kv.2))

/-- `unmask(maskedSum, droppedMasks)`: same as `maskUpdate` with subtraction. -/
def unmask (maskedSum : List (String × List ℚ)) (droppedMasks : List (String × List ℚ)) :
    List (String × List ℚ) :=
  maskedSum.map (fun kv =>
    match List.lookup kv.1 droppedMasks with
    | some mask =>
        (kv.1, (List.range kv.2.length).map (fun i => kv.2.getD i 0 - mask.getD i 0))
    | none => (kv.1, kv.2))

-- ---------------------------------------------------------------------------
-- Privacy filters (src/privacy.ts)
-- ---------------------------------------------------------------------------

/-- The flattened sum of squares computed by the first loop of
`clipGradients`. -/
noncomputable def sumSq (delta : List (String × List ℝ)) : ℝ :=
  delta.foldl (fun acc kv => kv.2.foldl (fun a v => a + v * v) acc) 0

/-- `clipGradients(delta, maxNorm)`: identity when the L2 norm does not exceed
`maxNorm`, otherwise every value is scaled by `maxNorm / norm`. -/
noncomputable def clipGradients (delta : List (String × List ℝ)) (maxNorm : ℝ) :
    List (String × List ℝ) :=
  let norm := Real.sqrt (sumSq delta)
  if norm ≤ maxNorm then delta
  else
    let scale := maxNorm / norm
    delta.map (fun kv => (kv.1, kv.2.map (fun v => v * scale)))

/-- One entry of a `QuantizedWeightMap`. -/
structure QuantizedTensor where
  data : List Int
  scale : ℚ
  zeroPoint : Int
deriving DecidableEq, Repr

/-- JavaScript `Math.round`: rounds half-way cases toward positive infinity. -/
def jsRound (v : ℚ) : Int :=
  Int.floor (v + 1 / 2)

/-- The `absMax` loop of `quantize`. -/
def absMaxOf (arr : List ℚ) : ℚ :=
  arr.foldl (fun absMax v => if |v| > absMax then |v| else absMax) 0

/-- Per-tensor body of `quantize(delta, bits)`: symmetric min-max quantization
with `maxVal = bits === 8 ? 127 : 32767` and `scale = absMax > 0 ? absMax / maxVal : 1`.
The stored integers provably satisfy `|q| ≤ maxVal`, so the `Int8Array` /
`Int16Array` wrap-around of the source is unreachable and `List Int` is a
faithful model of the storage. -/
def quantizeTensor (arr : List ℚ) (bits : Nat) : QuantizedTensor :=
  let maxVal : ℚ := if bits = 8 then 127 else 32767
  let absMax := absMaxOf arr
  let scale : ℚ := if absMax > 0 then absMax / maxVal else 1
  { data := arr.map (fun v => jsRound (v / scale)), scale := scale, zeroPoint := 0 }

/-- `quantize(delta, bits)`. -/
def quantize (delta : List (String × List ℚ)) (bits : Nat) :
    List (String × QuantizedTensor) :=
  delta.map (fun kv => (kv.1, quantizeTensor kv.2 bits))

/-- Per-tensor body of `dequantize`: `arr[i] = (data[i] - zeroPoint) * scale`. -/
def dequantizeTensor (t : QuantizedTensor) : List ℚ :=
  t.data.map (fun d : Int => ((d : ℚ) - (t.zeroPoint : ℚ)) * t.scale)

/-- `dequantize(quantized)`. -/
def dequantize (q : List (String × QuantizedTensor)) : List (String × List ℚ) :=
  q.map (fun kv => (kv.1, dequantizeTensor kv.2))

-- ---------------------------------------------------------------------------
-- WeightExtractor (model-manager)
-- ---------------------------------------------------------------------------

/-- `new OctomilError(code, message)`. -/
structure OctomilError where
  code : String
  message : String
deriving DecidableEq, Repr

/-- The delta tensor of `computeDelta`: `d[i] = a[i] - b[i]` over a
`Float32Array(b.length)`. -/
def zipSub (a b : List ℚ) : List ℚ :=
  (List.range b.length).map (fun i => a.getD i 0 - b.getD i 0)

/-- `WeightExtractor.computeDelta(before, after)`: walks the keys of `before`
in order, throwing `INVALID_INPUT` on a key missing from `after` or a length
mismatch. -/
def computeDelta (before after : List (String × List ℚ)) :
    Except OctomilError (List (String × List ℚ)) :=
  match before with
  | [] => Except.ok []
  | (key, b) :: rest =>
    match List.lookup key after with
    | none =>
        Except.error
          { code := "INVALID_INPUT"
            message := "Weight dimension mismatch for \"" ++ key ++ "\"." }
    | some a =>
      if b.length ≠ a.length then
        Except.error
          { code := "INVALID_INPUT"
            message := "Weight dimension mismatch for \"" ++ key ++ "\"." }
      else
        match computeDelta rest after with
        | Except.error e => Except.error e
        | Except.ok d => Except.ok ((key, zipSub a b) :: d)

/-- The updated tensor of `applyDelta`: `r[i] = w[i] + d[i]`. -/
def zipAdd (w d : List ℚ) : List ℚ :=
  (List.range w.length).map (fun i => w.getD i 0 + d.getD i 0)

/-- `WeightExtractor.applyDelta(weights, delta)`: keys of `weights` in order;
an absent or dimension-mismatched delta entry leaves an unmodified copy of the
weights tensor; keys only in `delta` are never visited.  Total by
construction (the source never throws here). -/
def applyDelta (weights delta : List (String × List ℚ)) :
    List (String × List ℚ) :=
  match weights with
  | [] => []
  | (key, w) :: rest =>
    match List.lookup key delta with
    | none => (key, w) :: applyDelta rest delta
    | some d =>
      if w.length ≠ d.length then (key, w) :: applyDelta rest delta
      else (key, zipAdd w d) :: applyDelta rest delta

-- ---------------------------------------------------------------------------
-- The prime field
-- ---------------------------------------------------------------------------

/-- 2^31 - 1 is (Mersenne) prime, by the Lucas-Lehmer test. -/
theorem prime_2147483647 : Nat.Prime 2147483647 := by
  have h : (mersenne 31).Prime := lucas_lehmer_sufficiency 31 (by norm_num) (by norm_num)
  simpa [mersenne] using h

instance : Fact (Nat.Prime 2147483647) :=
  ⟨prime_2147483647⟩

/-- The field GF(2^31 - 1) in which the Shamir arithmetic is interpreted. -/
abbrev Fp : Type := ZMod 2147483647

-- ---------------------------------------------------------------------------
-- General list lemmas
-- ---------------------------------------------------------------------------

theorem getD_map_range {β : Type} (f : Nat → β) {n i : Nat} (d : β) (h : i < n) :
    (List.map f (List.range n)).getD i d = f i := by
  simp [List.getD_eq_getElem?_getD, List.getElem?_map, List.getElem?_range h]

theorem map_getD_range_self {β : Type} (l : List β) (d : β) :
    (List.range l.length).map (fun i => l.getD i d) = l := by
  induction l with
  | nil => simp
  | cons a t ih =>
    rw [List.length_cons, List.range_succ_eq_map, List.map_cons, List.map_map]
    simpa [Function.comp_def, List.getD_cons_zero, List.getD_cons_succ] using ih

theorem lookup_cons_ne {β : Type} (k a : String) (b : β) (l : List (String × β))
    (h : k ≠ a) : List.lookup k ((a, b) :: l) = List.lookup k l := by
  simp [List.lookup_cons, beq_eq_false_iff_ne.mpr h]

theorem lookup_eq_none_of_not_mem {β : Type} (k : String) (l : List (String × β))
    (h : k ∉ l.map Prod.fst) : List.lookup k l = none := by
  induction l with
  | nil => rfl
  | cons e t ih =>
    obtain ⟨a, b⟩ := e
    simp only [List.map_cons, List.mem_cons, not_or] at h
    rw [lookup_cons_ne k a b t h.1]
    exact ih h.2

-- ---------------------------------------------------------------------------
-- C6: SecAggPlus.reconstructSecret
-- ---------------------------------------------------------------------------

/-- C6: for every SecAggPlus instance with threshold T and share list s,
`reconstructSecret(s)` fails with the explicit count-based insufficient-shares
error whenever `s.length < T` (never returning a value), and whenever
`s.length ≥ T` it returns exactly `shamirReconstruct` applied to the first T
shares of s. -/
theorem reconstructSecret_spec (sa : SecAggPlus) (shares : List SecretShare) :
    (shares.length < sa.threshold →
      sa.reconstructSecret shares =
        Except.error ("Need at least " ++ toString sa.threshold ++ " shares, got " ++
          toString shares.length ++ ".")) ∧
    (sa.threshold ≤ shares.length →
      sa.reconstructSecret shares =
        Except.ok (shamirReconstruct (List.take sa.threshold shares))) := by
  constructor
  · intro h
    simp [SecAggPlus.reconstructSecret, h]
  · intro h
    simp [SecAggPlus.reconstructSecret, Nat.not_lt.mpr h]

/-- Witness for C6 at threshold 3 with 2 shares (error case) and threshold 2
with 2 shares (success case). -/
theorem reconstructSecret_spec_witness :
    (SecAggPlus.mk 3).reconstructSecret [⟨1, 42⟩, ⟨2, 42⟩] =
      Except.error "Need at least 3 shares, got 2." ∧
    (SecAggPlus.mk 2).reconstructSecret [⟨1, 42⟩, ⟨2, 42⟩] =
      Except.ok (shamirReconstruct [⟨1, 42⟩, ⟨2, 42⟩]) := by
  constructor
  · exact ((reconstructSecret_spec (SecAggPlus.mk 3) [⟨1, 42⟩, ⟨2, 42⟩]).1
      (by norm_num)).trans (by rfl)
  · exact ((reconstructSecret_spec (SecAggPlus.mk 2) [⟨1, 42⟩, ⟨2, 42⟩]).2
      (by norm_num)).trans (by rfl)

-- ---------------------------------------------------------------------------
-- C5: unmask ∘ maskUpdate = id
-- ---------------------------------------------------------------------------

theorem unmask_entry_of_mask_entry (arr m : List ℚ) :
    (List.range ((List.range arr.length).map
        (fun i => arr.getD i 0 + m.getD i 0)).length).map
      (fun i => ((List.range arr.length).map
        (fun j => arr.getD j 0 + m.getD j 0)).getD i 0 - m.getD i 0) = arr := by
  rw [List.length_map, List.length_range]
  have h : ∀ i ∈ List.range arr.length,
      ((List.range arr.length).map
        (fun j => arr.getD j 0 + m.getD j 0)).getD i 0 - m.getD i 0 = arr.getD i 0 := by
    intro i hi
    rw [getD_map_range _ 0 (List.mem_range.mp hi)]
    ring
  rw [List.map_congr_left h, map_getD_range_self]

/-- C5: for every WeightMap delta and every non-empty mask map m,
`unmask(maskUpdate(delta, m), m)` equals delta element-wise, and every tensor
whose key is absent from m passes through both operations unmodified (value
equality; aliasing is not observable in the embedding). -/
theorem unmask_maskUpdate_spec (delta masks : List (String × List ℚ))
    (hm : masks ≠ []) :
    unmask (maskUpdate delta masks) masks = delta ∧
    ∀ k arr, (k, arr) ∈ delta → List.lookup k masks = none →
      (k, arr) ∈ maskUpdate delta masks ∧
      (k, arr) ∈ unmask (maskUpdate delta masks) masks := by
  have hmain : unmask (maskUpdate delta masks) masks = delta := by
    rw [unmask, maskUpdate, List.map_map]
    have hcomp : ∀ kv ∈ delta, ((fun kv : String × List ℚ =>
        match List.lookup kv.1 masks with
        | some mask => (kv.1, (List.range kv.2.length).map
            (fun i => kv.2.getD i 0 - mask.getD i 0))
        | none => (kv.1, kv.2)) ∘ (fun kv : String × List ℚ =>
        match List.lookup kv.1 masks with
        | some mask => (kv.1, (List.range kv.2.length).map
            (fun i => kv.2.getD i 0 + mask.getD i 0))
        | none => (kv.1, kv.2))) kv = id kv := by
      rintro ⟨k, arr⟩ _
      simp only [Function.comp_apply, id_eq]
      cases hfind : List.lookup k masks with
      | none => simp [hfind]
      | some m =>
        simp only [hfind]
        exact congrArg (fun l => (k, l)) (unmask_entry_of_mask_entry arr m)
    rw [List.map_congr_left hcomp, List.map_id]
  refine ⟨hmain, ?_⟩
  intro k arr hmem hnone
  have h1 : (k, arr) ∈ maskUpdate delta masks := by
    rw [maskUpdate]
    refine List.mem_map.mpr ⟨(k, arr), hmem, ?_⟩
    simp [hnone]
  have h2 : (k, arr) ∈ unmask (maskUpdate delta masks) masks := by
    rw [unmask]
    refine List.mem_map.mpr ⟨(k, arr), h1, ?_⟩
    simp [hnone]
  exact ⟨h1, h2⟩

/-- Witness for C5 on a two-tensor delta with one masked and one unmasked
key. -/
theorem unmask_maskUpdate_spec_witness :
    ([("c", [(5 : ℚ), 1]), ("x", [(3 : ℚ)])] : List (String × List ℚ)) ≠ [] ∧
    unmask (maskUpdate [("a", [(1 : ℚ), 2]), ("c", [(7 : ℚ)])]
        [("c", [(5 : ℚ), 1]), ("x", [(3 : ℚ)])])
      [("c", [(5 : ℚ), 1]), ("x", [(3 : ℚ)])] =
      [("a", [(1 : ℚ), 2]), ("c", [(7 : ℚ)])] := by
  refine ⟨by simp, ?_⟩
  exact (unmask_maskUpdate_spec [("a", [(1 : ℚ), 2]), ("c", [(7 : ℚ)])]
    [("c", [(5 : ℚ), 1]), ("x", [(3 : ℚ)])] (by simp)).1

-- ---------------------------------------------------------------------------
-- C9: applyDelta totality and pass-through
-- ---------------------------------------------------------------------------

theorem applyDelta_map_fst (weights delta : List (String × List ℚ)) :
    (applyDelta weights delta).map Prod.fst = weights.map Prod.fst := by
  induction weights with
  | nil => rfl
  | cons e rest ih =>
    obtain ⟨key, w⟩ := e
    rw [applyDelta]
    cases List.lookup key delta with
    | none => simpa using ih
    | some d =>
      by_cases hlen : w.length ≠ d.length
      · simpa [hlen] using ih
      · simpa [hlen] using ih

theorem applyDelta_mem_of_mismatch (weights delta : List (String × List ℚ))
    (k : String) (arr : List ℚ) (hmem : (k, arr) ∈ weights)
    (hmis : ∀ d, List.lookup k delta = some d → d.length ≠ arr.length) :
    (k, arr) ∈ applyDelta weights delta := by
  induction weights with
  | nil => simp at hmem
  | cons e rest ih =>
    obtain ⟨key, w⟩ := e
    rw [applyDelta]
    rcases List.mem_cons.mp hmem with hhead | htail
    · obtain ⟨hk, hw⟩ := Prod.mk.injEq .. ▸ hhead
      subst hk
      subst hw
      cases hfind : List.lookup k delta with
      | none => exact List.mem_cons_self _ _
      | some d =>
        have hne : d.length ≠ arr.length := hmis d hfind
        simp only [if_pos (by omega : arr.length ≠ d.length)]
        exact List.mem_cons_self _ _
    · have hrec := ih htail
      cases List.lookup key delta with
      | none => exact List.mem_cons_of_mem _ hrec
      | some d =>
        by_cases hlen : w.length ≠ d.length
        · simpa [hlen] using List.mem_cons_of_mem (key, w) hrec
        · simpa [hlen] using List.mem_cons_of_mem (key, zipAdd w d) hrec

/-- C9: `applyDelta` never raises (it is total by construction): for each key
of `weights` whose entry in `delta` is absent or has a different length, the
result contains the unmodified weights entry for that key, and keys present
only in `delta` are dropped (the result has exactly the keys of `weights`). -/
theorem applyDelta_spec (weights delta : List (String × List ℚ)) :
    (applyDelta weights delta).map Prod.fst = weights.map Prod.fst ∧
    (∀ k, k ∉ weights.map Prod.fst →
      List.lookup k (applyDelta weights delta) = none) ∧
    (∀ k arr, (k, arr) ∈ weights →
      (∀ d, List.lookup k delta = some d → d.length ≠ arr.length) →
      (k, arr) ∈ applyDelta weights delta) := by
  refine ⟨applyDelta_map_fst weights delta, ?_, ?_⟩
  · intro k hk
    refine lookup_eq_none_of_not_mem k _ ?_
    rw [applyDelta_map_fst weights delta]
    exact hk
  · intro k arr hmem hmis
    exact applyDelta_mem_of_mismatch weights delta k arr hmem hmis

/-- Witness for C9: a key with a mismatched delta entry passes through, a key
only in the delta is dropped. -/
theorem applyDelta_spec_witness :
    ("b", [(3 : ℚ)]) ∈ applyDelta [("a", [(1 : ℚ), 2]), ("b", [(3 : ℚ)])]
      [("b", [(9 : ℚ), 9]), ("z", [(1 : ℚ)])] ∧
    List.lookup "z" (applyDelta [("a", [(1 : ℚ), 2]), ("b", [(3 : ℚ)])]
      [("b", [(9 : ℚ), 9]), ("z", [(1 : ℚ)])]) = none := by
  constructor
  · refine (applyDelta_spec [("a", [(1 : ℚ), 2]), ("b", [(3 : ℚ)])]
      [("b", [(9 : ℚ), 9]), ("z", [(1 : ℚ)])]).2.2 "b" [(3 : ℚ)] (by simp) ?_
    intro d hd
    have : d = [(9 : ℚ), 9] := by simpa using hd.symm
    subst this
    decide
  · exact (applyDelta_spec [("a", [(1 : ℚ), 2]), ("b", [(3 : ℚ)])]
      [("b", [(9 : ℚ), 9]), ("z", [(1 : ℚ)])]).2.1 "z" (by simp)

-- ---------------------------------------------------------------------------
-- C7: createMask determinism and tiling
-- ---------------------------------------------------------------------------

/-- C7: `createMask` is deterministic - its output is a function of the
derived key material and the requested length (equal secrets derive equal
material, so equal secret and length yield an element-wise-equal mask) - and
when the requested length exceeds the 255 Float32 elements (8160 bits) one
HKDF `deriveBits` call can produce, the mask is the derived prefix tiled
periodically: `mask[i] = mask[i % 255]` for every `i < length`. -/
theorem createMask_spec {α : Type} (derive₁ derive₂ : Nat → List α) (dflt : α)
    (length : Nat)
    (hagree : derive₁ (min (length * 4 * 8) 8160) = derive₂ (min (length * 4 * 8) 8160))
    (hbits : (derive₁ (min (length * 4 * 8) 8160)).length = min (length * 4 * 8) 8160 / 32) :
    createMask derive₁ dflt length = createMask derive₂ dflt length ∧
    (255 < length → ∀ i, i < length →
      (createMask derive₁ dflt length).getD i dflt =
        (createMask derive₁ dflt length).getD (i % 255) dflt) := by
  constructor
  · rw [createMask, createMask, hagree]
  · intro hlong i hi
    have hmin : min (length * 4 * 8) 8160 = 8160 := by
      have : 8160 ≤ length * 4 * 8 := by omega
      omega
    have hsrc : (derive₁ (min (length * 4 * 8) 8160)).length = 255 := by
      rw [hbits, hmin]
    simp only [createMask]
    rw [getD_map_range _ dflt hi,
      getD_map_range _ dflt (lt_trans (Nat.mod_lt i (by norm_num)) hlong),
      hsrc, Nat.mod_mod]

/-- Witness for C7 with a concrete derivation function and length 300. -/
theorem createMask_spec_witness :
    createMask (fun n => List.range (n / 32)) 0 300 =
      createMask (fun n => List.range (n / 32)) 0 300 ∧
    (createMask (fun n => List.range (n / 32)) 0 300).getD 256 0 =
      (createMask (fun n => List.range (n / 32)) 0 300).getD (256 % 255) 0 := by
  have h := createMask_spec (fun n => List.range (n / 32))
    (fun n => List.range (n / 32)) 0 300 rfl (by simp)
  exact ⟨h.1, h.2 (by norm_num) 256 (by norm_num)⟩

-- ---------------------------------------------------------------------------
-- C8: applyDelta ∘ computeDelta round trip
-- ---------------------------------------------------------------------------

theorem computeDelta_skip (a : List (String × List ℚ)) (e : String × List ℚ)
    (b : List (String × List ℚ)) (h : e.1 ∉ a.map Prod.fst) :
    computeDelta a (e :: b) = computeDelta a b := by
  induction a with
  | nil => rfl
  | cons kv rest ih =>
    obtain ⟨k, w⟩ := kv
    obtain ⟨ke, we⟩ := e
    simp only [List.map_cons, List.mem_cons, not_or] at h
    rw [computeDelta, computeDelta, lookup_cons_ne k ke we b (fun hk => h.1 hk.symm),
      ih h.2]

theorem applyDelta_skip (a : List (String × List ℚ)) (e : String × List ℚ)
    (d : List (String × List ℚ)) (h : e.1 ∉ a.map Prod.fst) :
    applyDelta a (e :: d) = applyDelta a d := by
  induction a with
  | nil => rfl
  | cons kv rest ih =>
    obtain ⟨k, w⟩ := kv
    obtain ⟨ke, we⟩ := e
    simp only [List.map_cons, List.mem_cons, not_or] at h
    rw [applyDelta, applyDelta, lookup_cons_ne k ke we d (fun hk => h.1 hk.symm),
      ih h.2]

theorem zipAdd_zipSub (w w2 : List ℚ) (hl : w.length = w2.length) :
    zipAdd w (zipSub w2 w) = w2 := by
  rw [zipAdd]
  have h : ∀ i ∈ List.range w.length,
      w.getD i 0 + (zipSub w2 w).getD i 0 = w2.getD i 0 := by
    intro i hi
    rw [zipSub, getD_map_range _ 0 (List.mem_range.mp hi)]
    ring
  rw [List.map_congr_left h, hl, map_getD_range_self]

/-- C8: for all WeightMaps a and b with the same keys (no duplicates) and, for
each key, tensors of equal length, `computeDelta(a, b)` succeeds and
`applyDelta(a, computeDelta(a, b))` equals b element-wise. -/
theorem applyDelta_computeDelta_spec (a b : List (String × List ℚ))
    (hkeys : a.map Prod.fst = b.map Prod.fst)
    (hnodup : (a.map Prod.fst).Nodup)
    (hlens : a.map (fun kv => kv.2.length) = b.map (fun kv => kv.2.length)) :
    ∃ d, computeDelta a b = Except.ok d ∧ applyDelta a d = b := by
  induction a generalizing b with
  | nil =>
    have hb : b = [] := List.map_eq_nil_iff.mp hkeys.symm
    subst hb
    exact ⟨[], rfl, rfl⟩
  | cons kv rest ih =>
    obtain ⟨k, w⟩ := kv
    cases b with
    | nil => simp at hkeys
    | cons kv2 rest2 =>
      obtain ⟨k2, w2⟩ := kv2
      simp only [List.map_cons, List.cons.injEq] at hkeys hlens
      obtain ⟨hk, hkeys2⟩ := hkeys
      obtain ⟨hw, hlens2⟩ := hlens
      subst hk
      simp only [List.map_cons, List.nodup_cons] at hnodup
      obtain ⟨hkn, hnodup2⟩ := hnodup
      obtain ⟨d, hcd, had⟩ := ih rest2 hkeys2 hnodup2 hlens2
      refine ⟨(k, zipSub w2 w) :: d, ?_, ?_⟩
      · rw [computeDelta]
        have hself : List.lookup k ((k, w2) :: rest2) = some w2 := by
          simp [List.lookup]
        rw [hself]
        simp only [hw, ne_eq, not_true_eq_false, if_neg, ite_false]
        rw [computeDelta_skip rest (k, w2) rest2 hkn, hcd]
      · rw [applyDelta]
        have hself : List.lookup k ((k, zipSub w2 w) :: d) = some (zipSub w2 w) := by
          simp [List.lookup]
        rw [hself]
        have hzl : (zipSub w2 w).length = w.length := by
          simp [zipSub]
        simp only [hzl, ne_eq, not_true_eq_false, ite_false, if_neg]
        rw [applyDelta_skip rest (k, zipSub w2 w) d hkn, had,
          zipAdd_zipSub w w2 hw]

/-- Witness for C8 on concrete two-tensor weight maps. -/
theorem applyDelta_computeDelta_spec_witness :
    ([("w", [(1 : ℚ), 2]), ("v", [(3 : ℚ)])] : List (String × List ℚ)).map Prod.fst =
      ([("w", [(4 : ℚ), 6]), ("v", [(5 : ℚ)])] : List (String × List ℚ)).map Prod.fst ∧
    ∃ d, computeDelta [("w", [(1 : ℚ), 2]), ("v", [(3 : ℚ)])]
        [("w", [(4 : ℚ), 6]), ("v", [(5 : ℚ)])] = Except.ok d ∧
      applyDelta [("w", [(1 : ℚ), 2]), ("v", [(3 : ℚ)])] d =
        [("w", [(4 : ℚ), 6]), ("v", [(5 : ℚ)])] := by
  refine ⟨by simp, ?_⟩
  exact applyDelta_computeDelta_spec [("w", [(1 : ℚ), 2]), ("v", [(3 : ℚ)])]
    [("w", [(4 : ℚ), 6]), ("v", [(5 : ℚ)])] (by simp) (by simp) (by simp)

-- ---------------------------------------------------------------------------
-- C2: quantize/dequantize round-trip error bound
-- ---------------------------------------------------------------------------

theorem getD_map_of_lt {α β : Type} (f : α → β) (l : List α) {i : Nat}
    (h : i < l.length) (d : β) (dl : α) :
    (l.map f).getD i d = f (l.getD i dl) := by
  rw [List.getD_eq_getElem?_getD, List.getElem?_map, List.getElem?_eq_getElem h,
    List.getD_eq_getElem?_getD, List.getElem?_eq_getElem h]
  rfl

theorem jsRound_abs_le (t : ℚ) : |(jsRound t : ℚ) - t| ≤ 1 / 2 := by
  have h1 : ((Int.floor (t + 1 / 2) : Int) : ℚ) ≤ t + 1 / 2 := Int.floor_le _
  have h2 : t + 1 / 2 < ((Int.floor (t + 1 / 2) : Int) : ℚ) + 1 :=
    Int.lt_floor_add_one _
  rw [jsRound, abs_le]
  constructor <;> linarith

theorem quantizeTensor_scale_pos (arr : List ℚ) (bits : Nat) :
    0 < (quantizeTensor arr bits).scale := by
  rw [quantizeTensor]
  simp only
  by_cases h : absMaxOf arr > 0
  · have hmv : (0 : ℚ) < if bits = 8 then 127 else 32767 := by
      by_cases hb : bits = 8 <;> simp [hb]
    simp only [h, if_pos]
    positivity
  · simp [h]

theorem quantizeTensor_zeroPoint (arr : List ℚ) (bits : Nat) :
    (quantizeTensor arr bits).zeroPoint = 0 := by
  rw [quantizeTensor]

theorem quantizeTensor_data (arr : List ℚ) (bits : Nat) :
    (quantizeTensor arr bits).data =
      arr.map (fun v => jsRound (v / (quantizeTensor arr bits).scale)) := by
  rw [quantizeTensor]

theorem dequantizeTensor_quantizeTensor (arr : List ℚ) (bits : Nat) :
    dequantizeTensor (quantizeTensor arr bits) =
      arr.map (fun v =>
        (jsRound (v / (quantizeTensor arr bits).scale) : ℚ) *
          (quantizeTensor arr bits).scale) := by
  rw [dequantizeTensor, quantizeTensor_data, quantizeTensor_zeroPoint, List.map_map]
  simp [Function.comp_def]

theorem dequantizeTensor_quantizeTensor_bound (arr : List ℚ) (bits : Nat)
    {i : Nat} (hi : i < arr.length) :
    |(dequantizeTensor (quantizeTensor arr bits)).getD i 0 - arr.getD i 0|
      ≤ (quantizeTensor arr bits).scale / 2 := by
  have hs : 0 < (quantizeTensor arr bits).scale := quantizeTensor_scale_pos arr bits
  rw [dequantizeTensor_quantizeTensor, getD_map_of_lt _ arr hi 0 0]
  have hxs : arr.getD i 0 / (quantizeTensor arr bits).scale *
      (quantizeTensor arr bits).scale = arr.getD i 0 :=
    div_mul_cancel₀ _ (ne_of_gt hs)
  have h1 : ((jsRound (arr.getD i 0 / (quantizeTensor arr bits).scale) : ℚ) -
        arr.getD i 0 / (quantizeTensor arr bits).scale) *
        (quantizeTensor arr bits).scale =
      (jsRound (arr.getD i 0 / (quantizeTensor arr bits).scale) : ℚ) *
        (quantizeTensor arr bits).scale - arr.getD i 0 := by
    rw [sub_mul, hxs]
  have habs : |(jsRound (arr.getD i 0 / (quantizeTensor arr bits).scale) : ℚ) *
        (quantizeTensor arr bits).scale - arr.getD i 0| =
      |(jsRound (arr.getD i 0 / (quantizeTensor arr bits).scale) : ℚ) -
        arr.getD i 0 / (quantizeTensor arr bits).scale| *
        (quantizeTensor arr bits).scale := by
    rw [← h1, abs_mul, abs_of_pos hs]
  rw [habs]
  calc |(jsRound (arr.getD i 0 / (quantizeTensor arr bits).scale) : ℚ) -
        arr.getD i 0 / (quantizeTensor arr bits).scale| *
        (quantizeTensor arr bits).scale
      ≤ 1 / 2 * (quantizeTensor arr bits).scale :=
        mul_le_mul_of_nonneg_right (jsRound_abs_le _) (le_of_lt hs)
    _ = (quantizeTensor arr bits).scale / 2 := by ring

/-- C2: for every WeightMap x and bits ∈ {8, 16}, every element of
`dequantize(quantize(x, bits))` differs from the corresponding element of x by
at most `scale / 2` for that tensor's scale, hence by at most `scale`. -/
theorem quantize_dequantize_spec (wm : List (String × List ℚ)) (bits : Nat)
    (hbits : bits = 8 ∨ bits = 16) :
    ∀ t, t < wm.length → ∀ i, i < (wm.getD t ("", [])).2.length →
      |((dequantize (quantize wm bits)).getD t ("", [])).2.getD i 0 -
          (wm.getD t ("", [])).2.getD i 0|
        ≤ ((quantize wm bits).getD t ("", QuantizedTensor.mk [] 1 0)).2.scale / 2 ∧
      |((dequantize (quantize wm bits)).getD t ("", [])).2.getD i 0 -
          (wm.getD t ("", [])).2.getD i 0|
        ≤ ((quantize wm bits).getD t ("", QuantizedTensor.mk [] 1 0)).2.scale := by
  intro t ht i hi
  have hmap : (dequantize (quantize wm bits)).getD t ("", []) =
      ((wm.getD t ("", [])).1,
        dequantizeTensor (quantizeTensor (wm.getD t ("", [])).2 bits)) := by
    rw [dequantize, quantize, List.map_map,
      getD_map_of_lt _ wm ht ("", []) ("", [])]
    rfl
  have hq : (quantize wm bits).getD t ("", QuantizedTensor.mk [] 1 0) =
      ((wm.getD t ("", [])).1, quantizeTensor (wm.getD t ("", [])).2 bits) := by
    rw [quantize, getD_map_of_lt (fun kv : String × List ℚ => (kv.1, quantizeTensor kv.2 bits))
      wm ht ("", QuantizedTensor.mk [] 1 0) ("", [])]
  rw [hmap, hq]
  have hb := dequantizeTensor_quantizeTensor_bound (wm.getD t ("", [])).2 bits hi
  refine ⟨hb, le_trans hb ?_⟩
  have hs := quantizeTensor_scale_pos (wm.getD t ("", [])).2 bits
  linarith

/-- Witness for C2 on a concrete tensor with 8-bit quantization. -/
theorem quantize_dequantize_spec_witness :
    ((8 : Nat) = 8 ∨ (8 : Nat) = 16) ∧
    (|((dequantize (quantize [("w", [(1 : ℚ)/3, -2, 3/2])] 8)).getD 0 ("", [])).2.getD 0 0 -
        (([("w", [(1 : ℚ)/3, -2, 3/2])] : List (String × List ℚ)).getD 0 ("", [])).2.getD 0 0|
      ≤ ((quantize [("w", [(1 : ℚ)/3, -2, 3/2])] 8).getD 0 ("", QuantizedTensor.mk [] 1 0)).2.scale / 2 ∧
    |((dequantize (quantize [("w", [(1 : ℚ)/3, -2, 3/2])] 8)).getD 0 ("", [])).2.getD 0 0 -
        (([("w", [(1 : ℚ)/3, -2, 3/2])] : List (String × List ℚ)).getD 0 ("", [])).2.getD 0 0|
      ≤ ((quantize [("w", [(1 : ℚ)/3, -2, 3/2])] 8).getD 0 ("", QuantizedTensor.mk [] 1 0)).2.scale) := by
  exact ⟨Or.inl rfl,
    quantize_dequantize_spec [("w", [(1 : ℚ)/3, -2, 3/2])] 8 (Or.inl rfl) 0
      (by norm_num) 0 (by norm_num)⟩

-- ---------------------------------------------------------------------------
-- C3: shamirSplit performs no threshold validation
-- ---------------------------------------------------------------------------

theorem tmod_small {a : Int} (h1 : 0 ≤ a) (h2 : a < 2147483647) : a.tmod PRIME = a :=
  Int.tmod_eq_of_lt h1 (by rw [PRIME]; exact h2)

theorem neg_tmod_eq (a b : Int) : (-a).tmod b = -(a.tmod b) := by
  rw [Int.tmod_def, Int.tmod_def, Int.neg_tdiv]
  ring

theorem tmod_idem (a b : Int) (hb : 0 < b) : (a.tmod b).tmod b = a.tmod b := by
  rcases le_or_lt 0 a with ha | ha
  · exact Int.tmod_eq_of_lt (Int.tmod_nonneg b ha) (Int.tmod_lt_of_pos a hb)
  · have hna : 0 ≤ -a := by omega
    have h1 : a.tmod b = -((-a).tmod b) := by rw [neg_tmod_eq, neg_neg]
    rw [h1, neg_tmod_eq,
      Int.tmod_eq_of_lt (Int.tmod_nonneg b hna) (Int.tmod_lt_of_pos (-a) hb)]

theorem modPow_exp_zero (base m : Int) : modPow base 0 m = 1 := by
  rw [modPow, modPowAux]
  simp

theorem shamirCoeffs_zero_rand (secret : Int) (threshold : Nat) :
    shamirCoeffs secret threshold (fun _ => 0) =
      secret.tmod PRIME :: List.replicate (threshold - 1) 0 := by
  rw [shamirCoeffs]
  congr 1
  have h : (fun j : Nat => ((0 : Nat) : Int).tmod PRIME) = fun _ : Nat => (0 : Int) := by
    funext j
    norm_num [Int.zero_tmod]
  rw [h]
  simp [List.map_const]

/-- C3 (counterexample): `shamirSplit` does not fail fast on a threshold
outside `[1, numShares]`: with threshold 5 > numShares 3 (and with
threshold 0 < 1) it returns 3 ordinary shares instead of an
invalid-configuration error, after having drawn random coefficients. -/
theorem shamirSplit_no_error_counterexample :
    shamirSplit 42 5 3 (fun _ => 0) =
      [{ x := 1, y := 42 }, { x := 2, y := 42 }, { x := 3, y := 42 }] ∧
    shamirSplit 42 0 3 (fun _ => 0) =
      [{ x := 1, y := 42 }, { x := 2, y := 42 }, { x := 3, y := 42 }] := by
  have h42 : (42 : Int).tmod PRIME = 42 := tmod_small (by norm_num) (by norm_num)
  constructor
  · rw [shamirSplit, shamirCoeffs_zero_rand, h42]
    norm_num [List.range_succ, shamirEvalAux, modPow_exp_zero, tmod_small,
      List.replicate]
  · rw [shamirSplit, shamirCoeffs_zero_rand, h42]
    norm_num [List.range_succ, shamirEvalAux, modPow_exp_zero, tmod_small,
      List.replicate]

/-- C3 (amended): `shamirSplit` performs no validation of the threshold: for
every threshold T and share count N it succeeds, returning exactly N shares;
for T = 1 every produced share's y-value equals the secret mod prime. -/
theorem shamirSplit_no_validation (secret : Int) (threshold numShares : Nat)
    (rand : Nat → Nat) :
    (shamirSplit secret threshold numShares rand).length = numShares ∧
    (threshold = 1 →
      ∀ s ∈ shamirSplit secret threshold numShares rand, s.y = secret.tmod PRIME) := by
  constructor
  · rw [shamirSplit, List.length_map, List.length_range]
  · rintro rfl s hs
    rw [shamirSplit] at hs
    obtain ⟨k, _, rfl⟩ := List.mem_map.mp hs
    show shamirEvalAux (shamirCoeffs secret 1 rand) ((k : Int) + 1) 0 0 = secret.tmod PRIME
    rw [shamirCoeffs]
    simp only [Nat.sub_self, List.range_zero, List.map_nil]
    rw [shamirEvalAux, shamirEvalAux, modPow_exp_zero]
    rw [mul_one, zero_add]
    exact tmod_idem secret PRIME (by rw [PRIME]; norm_num)

/-- Witness for the amended C3 at secret 42, threshold 1, three shares. -/
theorem shamirSplit_no_validation_witness :
    (shamirSplit 42 1 3 (fun _ => 0)).length = 3 ∧
    ∀ s ∈ shamirSplit 42 1 3 (fun _ => 0), s.y = (42 : Int).tmod PRIME := by
  exact ⟨(shamirSplit_no_validation 42 1 3 (fun _ => 0)).1,
    (shamirSplit_no_validation 42 1 3 (fun _ => 0)).2 rfl⟩

-- ---------------------------------------------------------------------------
-- C4: clipGradients
-- ---------------------------------------------------------------------------

theorem foldl_add_sq (l : List ℝ) (a : ℝ) :
    l.foldl (fun x v => x + v * v) a = a + (l.map (fun v => v * v)).sum := by
  induction l generalizing a with
  | nil => simp
  | cons v t ih =>
    rw [List.foldl_cons, ih, List.map_cons, List.sum_cons]
    ring

theorem sumSq_eq (delta : List (String × List ℝ)) :
    sumSq delta = (delta.map (fun kv => (kv.2.map (fun v => v * v)).sum)).sum := by
  rw [sumSq]
  suffices h : ∀ a : ℝ, delta.foldl (fun acc kv => kv.2.foldl (fun x v => x + v * v) acc) a =
      a + (delta.map (fun kv => (kv.2.map (fun v => v * v)).sum)).sum by
    rw [h 0, zero_add]
  induction delta with
  | nil => simp
  | cons kv t ih =>
    intro a
    rw [List.foldl_cons, ih, foldl_add_sq, List.map_cons, List.sum_cons]
    ring

theorem sumSq_nonneg (delta : List (String × List ℝ)) : 0 ≤ sumSq delta := by
  rw [sumSq_eq]
  apply List.sum_nonneg
  intro x hx
  obtain ⟨kv, _, rfl⟩ := List.mem_map.mp hx
  apply List.sum_nonneg
  intro y hy
  obtain ⟨v, _, rfl⟩ := List.mem_map.mp hy
  exact mul_self_nonneg v

theorem sumSq_scaled (delta : List (String × List ℝ)) (c : ℝ) :
    sumSq (delta.map (fun kv => (kv.1, kv.2.map (fun v => v * c)))) =
      sumSq delta * c ^ 2 := by
  rw [sumSq_eq, sumSq_eq, List.map_map]
  have h : ∀ kv ∈ delta, ((fun kv : String × List ℝ =>
      (kv.2.map (fun v => v * v)).sum) ∘ (fun kv : String × List ℝ =>
      (kv.1, kv.2.map (fun v => v * c)))) kv =
      (fun kv : String × List ℝ => (kv.2.map (fun v => v * v)).sum * c ^ 2) kv := by
    intro kv _
    simp only [Function.comp_apply, List.map_map]
    have h2 : ∀ v ∈ kv.2, ((fun v => v * v) ∘ fun v => v * c) v =
        (fun v => v * v * c ^ 2) v := by
      intro v _
      simp only [Function.comp_apply]
      ring
    rw [List.map_congr_left h2, List.sum_map_mul_right]
  rw [List.map_congr_left h, List.sum_map_mul_right]

theorem clipGradients_getD (delta : List (String × List ℝ)) (maxNorm : ℝ)
    (h : ¬ Real.sqrt (sumSq delta) ≤ maxNorm) (t i : Nat) :
    ((clipGradients delta maxNorm).getD t ("", [])).2.getD i 0 =
      (delta.getD t ("", [])).2.getD i 0 * (maxNorm / Real.sqrt (sumSq delta)) := by
  simp only [clipGradients]
  rw [if_neg h]
  rcases Nat.lt_or_ge t delta.length with ht | ht
  · rw [getD_map_of_lt (fun kv : String × List ℝ =>
      (kv.1, kv.2.map (fun v => v * (maxNorm / Real.sqrt (sumSq delta)))))
      delta ht ("", []) ("", [])]
    rcases Nat.lt_or_ge i (delta.getD t ("", [])).2.length with hi | hi
    · exact getD_map_of_lt _ _ hi 0 0
    · rw [List.getD_eq_default _ _ (by simpa using hi),
        List.getD_eq_default _ _ hi, zero_mul]
  · have houter : (delta.map (fun kv : String × List ℝ =>
        (kv.1, kv.2.map (fun v => v * (maxNorm / Real.sqrt (sumSq delta)))))).getD t
          ("", []) = ("", []) :=
      List.getD_eq_default _ _ (by simpa using ht)
    have hin : delta.getD t ("", []) = ("", []) := List.getD_eq_default _ _ ht
    rw [houter, hin]
    simp

/-- C4 (amended): for every WeightMap delta and maxNorm ≥ 0: if the L2 norm of
the flattened delta is ≤ maxNorm (in particular for a zero-length delta),
`clipGradients` returns the input unchanged; otherwise it scales every element
by `maxNorm / norm`, the output's L2 norm equals maxNorm exactly, and the
ratio between any two components is preserved (stated multiplicatively); it
never errors (it is total by construction). -/
theorem clipGradients_spec (delta : List (String × List ℝ)) (maxNorm : ℝ)
    (hmax : 0 ≤ maxNorm) :
    (Real.sqrt (sumSq delta) ≤ maxNorm → clipGradients delta maxNorm = delta) ∧
    (sumSq delta = 0 → clipGradients delta maxNorm = delta) ∧
    (maxNorm < Real.sqrt (sumSq delta) →
      Real.sqrt (sumSq (clipGradients delta maxNorm)) = maxNorm ∧
      ∀ t1 i1 t2 i2 : Nat,
        ((clipGradients delta maxNorm).getD t1 ("", [])).2.getD i1 0 *
            (delta.getD t2 ("", [])).2.getD i2 0 =
          ((clipGradients delta maxNorm).getD t2 ("", [])).2.getD i2 0 *
            (delta.getD t1 ("", [])).2.getD i1 0) := by
  have hid : Real.sqrt (sumSq delta) ≤ maxNorm → clipGradients delta maxNorm = delta := by
    intro h
    simp only [clipGradients]
    rw [if_pos h]
  refine ⟨hid, ?_, ?_⟩
  · intro h0
    exact hid (by rw [h0, Real.sqrt_zero]; exact hmax)
  · intro h3
    have hne : ¬ Real.sqrt (sumSq delta) ≤ maxNorm := not_le.mpr h3
    have hS : 0 < sumSq delta := Real.sqrt_pos.mp (lt_of_le_of_lt hmax h3)
    have hclip_eq : clipGradients delta maxNorm =
        delta.map (fun kv =>
          (kv.1, kv.2.map (fun v => v * (maxNorm / Real.sqrt (sumSq delta))))) := by
      simp only [clipGradients]
      rw [if_neg hne]
    constructor
    · rw [hclip_eq, sumSq_scaled]
      have harith : sumSq delta * (maxNorm / Real.sqrt (sumSq delta)) ^ 2 =
          maxNorm ^ 2 := by
        rw [div_pow, Real.sq_sqrt (le_of_lt hS)]
        exact mul_div_cancel₀ (maxNorm ^ 2) (ne_of_gt hS)
      rw [harith, Real.sqrt_sq hmax]
    · intro t1 i1 t2 i2
      rw [clipGradients_getD delta maxNorm hne t1 i1,
        clipGradients_getD delta maxNorm hne t2 i2]
      ring

theorem sqrt_sumSq_w34 : Real.sqrt (sumSq [("w", [(3 : ℝ), 4])]) = 5 := by
  have hS : sumSq [("w", [(3 : ℝ), 4])] = 25 := by norm_num [sumSq]
  rw [hS, show (25 : ℝ) = 5 ^ 2 by norm_num, Real.sqrt_sq (by norm_num : (0 : ℝ) ≤ 5)]

/-- C4 (counterexample): for a negative maxNorm the claim fails: with
`delta = {w: [3, 4]}` and `maxNorm = -1` the code takes the clipping branch
and produces an output of L2 norm 1, which is not equal to maxNorm = -1. -/
theorem clipGradients_negative_maxNorm_counterexample :
    Real.sqrt (sumSq (clipGradients [("w", [(3 : ℝ), 4])] (-1))) = 1 ∧
    (1 : ℝ) ≠ -1 := by
  have hne : ¬ Real.sqrt (sumSq [("w", [(3 : ℝ), 4])]) ≤ (-1 : ℝ) := by
    rw [sqrt_sumSq_w34]
    norm_num
  have hclip : clipGradients [("w", [(3 : ℝ), 4])] (-1) =
      [("w", [3 * (-1 / 5), 4 * (-1 / 5)])] := by
    simp only [clipGradients]
    rw [if_neg hne, sqrt_sumSq_w34]
    norm_num
  rw [hclip]
  have h1 : sumSq [("w", [3 * (-1 / 5), 4 * (-1 / 5)])] = 1 := by norm_num [sumSq]
  rw [h1, Real.sqrt_one]
  norm_num

/-- Witness for the amended C4: identity below the norm bound, exact output
norm above it, on `{w: [3, 4]}`. -/
theorem clipGradients_spec_witness :
    (0 : ℝ) ≤ 10 ∧ clipGradients [("w", [(3 : ℝ), 4])] 10 = [("w", [(3 : ℝ), 4])] ∧
    Real.sqrt (sumSq (clipGradients [("w", [(3 : ℝ), 4])] (5 / 2))) = 5 / 2 := by
  refine ⟨by norm_num, ?_, ?_⟩
  · exact (clipGradients_spec [("w", [(3 : ℝ), 4])] 10 (by norm_num)).1
      (by rw [sqrt_sumSq_w34]; norm_num)
  · exact ((clipGradients_spec [("w", [(3 : ℝ), 4])] (5 / 2) (by norm_num)).2.2
      (by rw [sqrt_sumSq_w34]; norm_num)).1

-- ---------------------------------------------------------------------------
-- Interpreting the modular arithmetic in GF(2^31 - 1)
-- ---------------------------------------------------------------------------

theorem PRIME_pos : (0 : Int) < PRIME := by
  rw [PRIME]
  norm_num

theorem PRIME_cast_eq_zero : ((PRIME : Int) : Fp) = 0 := by
  have h : ((2147483647 : Nat) : Fp) = 0 := ZMod.natCast_self _
  rw [PRIME]
  exact_mod_cast h

theorem intCast_tmod_prime (a : Int) : ((a.tmod PRIME : Int) : Fp) = (a : Fp) := by
  have h := Int.tmod_add_tdiv a PRIME
  calc ((a.tmod PRIME : Int) : Fp)
      = ((a.tmod PRIME : Int) : Fp) + ((PRIME : Int) : Fp) * ((a.tdiv PRIME : Int) : Fp) := by
        rw [PRIME_cast_eq_zero]
        ring
    _ = (((a.tmod PRIME + PRIME * a.tdiv PRIME : Int)) : Fp) := by push_cast; ring
    _ = (a : Fp) := by rw [h]

theorem int_eq_of_fp_eq {a b : Int} (ha0 : 0 ≤ a) (hap : a < PRIME) (hb0 : 0 ≤ b)
    (hbp : b < PRIME) (h : (a : Fp) = (b : Fp)) : a = b := by
  rw [ZMod.intCast_eq_intCast_iff] at h
  have hd : ((2147483647 : Nat) : Int) ∣ b - a := Int.ModEq.dvd h
  have hz : b - a = 0 := by
    refine Int.eq_zero_of_abs_lt_dvd hd ?_
    rw [PRIME] at hap hbp
    rw [abs_lt]
    constructor <;> [push_cast; push_cast] <;> omega
  omega

theorem fp_cast_ne_of_ne {a b : Int} (ha0 : 0 ≤ a) (hap : a < PRIME) (hb0 : 0 ≤ b)
    (hbp : b < PRIME) (h : a ≠ b) : (a : Fp) ≠ (b : Fp) := by
  intro hc
  exact h (int_eq_of_fp_eq ha0 hap hb0 hbp hc)

theorem modPowAux_cast :
    ∀ (e : Nat) (r b : Int),
      ((modPowAux r b e PRIME : Int) : Fp) = (r : Fp) * (b : Fp) ^ e := by
  intro e
  induction e using Nat.strong_induction_on with
  | _ e ih =>
    intro r b
    rw [modPowAux]
    by_cases h : e = 0
    · rw [dif_pos h, h]
      simp
    · rw [dif_neg h]
      have hlt : e / 2 < e := Nat.div_lt_self (Nat.pos_of_ne_zero h) one_lt_two
      rw [ih (e / 2) hlt]
      have hb2 : (((b * b).tmod PRIME : Int) : Fp) = (b : Fp) * (b : Fp) := by
        rw [intCast_tmod_prime]
        push_cast
        ring
      rcases Nat.mod_two_eq_zero_or_one e with h2 | h2
      · rw [if_neg (by omega)]
        have he : 2 * (e / 2) = e := by omega
        rw [hb2, ← pow_two, ← pow_mul, he]
      · rw [if_pos h2, intCast_tmod_prime]
        push_cast
        rw [hb2, ← pow_two, ← pow_mul]
        have he : e = 2 * (e / 2) + 1 := by omega
        calc (r : Fp) * (b : Fp) * ((b : Fp) ^ (2 * (e / 2))) =
            (r : Fp) * ((b : Fp) ^ (2 * (e / 2) + 1)) := by rw [pow_succ]; ring
          _ = (r : Fp) * (b : Fp) ^ e := by rw [← he]

theorem modPowAux_bounds :
    ∀ (e : Nat) (r b : Int), 0 ≤ r → r < PRIME → 0 ≤ b →
      0 ≤ modPowAux r b e PRIME ∧ modPowAux r b e PRIME < PRIME := by
  intro e
  induction e using Nat.strong_induction_on with
  | _ e ih =>
    intro r b hr0 hrp hb0
    rw [modPowAux]
    by_cases h : e = 0
    · rw [dif_pos h]
      exact ⟨hr0, hrp⟩
    · rw [dif_neg h]
      have hlt : e / 2 < e := Nat.div_lt_self (Nat.pos_of_ne_zero h) one_lt_two
      refine ih (e / 2) hlt _ _ ?_ ?_ ?_
      · by_cases h2 : e % 2 = 1
        · rw [if_pos h2]
          exact Int.tmod_nonneg PRIME (mul_nonneg hr0 hb0)
        · rw [if_neg h2]
          exact hr0
      · by_cases h2 : e % 2 = 1
        · rw [if_pos h2]
          exact Int.tmod_lt_of_pos _ PRIME_pos
        · rw [if_neg h2]
          exact hrp
      · exact Int.tmod_nonneg PRIME (mul_nonneg hb0 hb0)

theorem modPow_cast (b : Int) (e : Nat) :
    ((modPow b e PRIME : Int) : Fp) = (b : Fp) ^ e := by
  rw [modPow, modPowAux_cast, intCast_tmod_prime]
  simp

theorem modPow_bounds (b : Int) (e : Nat) (hb : 0 ≤ b) :
    0 ≤ modPow b e PRIME ∧ modPow b e PRIME < PRIME := by
  rw [modPow]
  exact modPowAux_bounds e 1 (b.tmod PRIME) (by norm_num)
    (by rw [PRIME]; norm_num) (Int.tmod_nonneg PRIME hb)

theorem modInverse_cast (a : Int) (ha : (a : Fp) ≠ 0) :
    ((modInverse a PRIME : Int) : Fp) = (a : Fp)⁻¹ := by
  rw [modInverse]
  have hexp : (PRIME - 2).toNat = 2147483645 := by rw [PRIME]; decide
  rw [hexp, modPow_cast]
  have h1 : (a : Fp) ^ (2147483645 : Nat) * (a : Fp) = 1 := by
    have h := ZMod.pow_card_sub_one_eq_one (p := 2147483647) ha
    norm_num at h
    rw [← pow_succ]
    norm_num
    try exact h
  exact (inv_eq_of_mul_eq_one_left h1).symm

theorem modInverse_bounds (a : Int) (ha : 0 ≤ a) :
    0 ≤ modInverse a PRIME ∧ modInverse a PRIME < PRIME := by
  rw [modInverse]
  exact modPow_bounds a _ ha

-- ---------------------------------------------------------------------------
-- Fold lemmas for the reconstruction loops
-- ---------------------------------------------------------------------------

theorem foldl_skip {σ : Type} (g : σ → Nat → σ) (i : Nat) :
    ∀ (l : List Nat) (init : σ),
      l.foldl (fun acc j => if j = i then acc else g acc j) init =
        (l.filter (fun j => j ≠ i)).foldl g init := by
  intro l
  induction l with
  | nil => intro init; rfl
  | cons a t ih =>
    intro init
    by_cases h : a = i
    · rw [List.foldl_cons, if_pos h, List.filter_cons, if_neg (by simp [h])]
      exact ih init
    · rw [List.foldl_cons, if_neg h, List.filter_cons, if_pos (by simp [h]),
        List.foldl_cons]
      exact ih (g init a)

theorem foldl_pair_split {α : Type} (f g : Int → α → Int) :
    ∀ (l : List α) (a b : Int),
      l.foldl (fun (nd : Int × Int) j => (f nd.1 j, g nd.2 j)) (a, b) =
        (l.foldl f a, l.foldl g b) := by
  intro l
  induction l with
  | nil => intro a b; rfl
  | cons x t ih =>
    intro a b
    rw [List.foldl_cons, List.foldl_cons, List.foldl_cons]
    exact ih (f a x) (g b x)

theorem foldl_mul_tmod_cast (h : Nat → Int) :
    ∀ (l : List Nat) (a : Int),
      ((l.foldl (fun acc j => (acc * h j).tmod PRIME) a : Int) : Fp) =
        (a : Fp) * (l.map (fun j => ((h j : Int) : Fp))).prod := by
  intro l
  induction l with
  | nil => intro a; simp
  | cons x t ih =>
    intro a
    rw [List.foldl_cons, ih, intCast_tmod_prime, List.map_cons, List.prod_cons]
    push_cast
    ring

theorem foldl_mul_tmod_bounds (h : Nat → Int) :
    ∀ (l : List Nat) (a : Int), 0 ≤ a → a < PRIME → (∀ j ∈ l, 0 ≤ h j) →
      0 ≤ l.foldl (fun acc j => (acc * h j).tmod PRIME) a ∧
        l.foldl (fun acc j => (acc * h j).tmod PRIME) a < PRIME := by
  intro l
  induction l with
  | nil => intro a h0 hp _; exact ⟨h0, hp⟩
  | cons x t ih =>
    intro a h0 _ hl
    rw [List.foldl_cons]
    refine ih _ ?_ ?_ (fun j hj => hl j (List.mem_cons_of_mem x hj))
    · exact Int.tmod_nonneg PRIME (mul_nonneg h0 (hl x (List.mem_cons_self x t)))
    · exact Int.tmod_lt_of_pos _ PRIME_pos

theorem foldl_add_tmod_cast (w : Nat → Int) :
    ∀ (l : List Nat) (a : Int),
      ((l.foldl (fun acc i => (acc + w i).tmod PRIME) a : Int) : Fp) =
        (a : Fp) + (l.map (fun i => ((w i : Int) : Fp))).sum := by
  intro l
  induction l with
  | nil => intro a; simp
  | cons x t ih =>
    intro a
    rw [List.foldl_cons, ih, intCast_tmod_prime, List.map_cons, List.sum_cons]
    push_cast
    ring

theorem foldl_add_tmod_bounds (w : Nat → Int) :
    ∀ (l : List Nat) (a : Int), 0 ≤ a → a < PRIME → (∀ i ∈ l, 0 ≤ w i) →
      0 ≤ l.foldl (fun acc i => (acc + w i).tmod PRIME) a ∧
        l.foldl (fun acc i => (acc + w i).tmod PRIME) a < PRIME := by
  intro l
  induction l with
  | nil => intro a h0 hp _; exact ⟨h0, hp⟩
  | cons x t ih =>
    intro a h0 _ hl
    rw [List.foldl_cons]
    refine ih _ ?_ ?_ (fun i hi => hl i (List.mem_cons_of_mem x hi))
    · exact Int.tmod_nonneg PRIME (add_nonneg h0 (hl x (List.mem_cons_self x t)))
    · exact Int.tmod_lt_of_pos _ PRIME_pos

theorem list_range_map_prod (f : Nat → Fp) (n : Nat) :
    ((List.range n).map f).prod = ∏ j in Finset.range n, f j := by
  induction n with
  | zero => simp
  | succ n ih =>
    rw [List.range_succ, List.map_append, List.prod_append, Finset.prod_range_succ, ih]
    simp

theorem list_range_map_sum (f : Nat → Fp) (n : Nat) :
    ((List.range n).map f).sum = ∑ j in Finset.range n, f j := by
  induction n with
  | zero => simp
  | succ n ih =>
    rw [List.range_succ, List.map_append, List.sum_append, Finset.sum_range_succ, ih]
    simp

theorem filter_ne_map_prod (f : Nat → Fp) (i : Nat) :
    ∀ l : List Nat,
      ((l.filter (fun j => j ≠ i)).map f).prod =
        (l.map (fun j => if j ≠ i then f j else 1)).prod := by
  intro l
  induction l with
  | nil => rfl
  | cons a t ih =>
    by_cases h : a = i
    · rw [List.filter_cons, if_neg (by simp [h]), List.map_cons, List.prod_cons,
        if_neg (by simp [h]), ih, one_mul]
    · rw [List.filter_cons, if_pos (by simp [h]), List.map_cons, List.map_cons,
        List.prod_cons, List.prod_cons, if_pos (by simp [h]), ih]

theorem range_erase_prod (f : Nat → Fp) (n i : Nat) :
    (((List.range n).filter (fun j => j ≠ i)).map f).prod =
      ∏ j in (Finset.range n).erase i, f j := by
  rw [filter_ne_map_prod, ← Finset.filter_ne' (Finset.range n) i, Finset.prod_filter,
    ← list_range_map_prod]

-- ---------------------------------------------------------------------------
-- shamirReconstruct as a sum of Lagrange terms in the field
-- ---------------------------------------------------------------------------

theorem shamirReconstruct_eq_foldl (shares : List SecretShare) :
    shamirReconstruct shares =
      (List.range shares.length).foldl
        (fun secret i =>
          (secret + (shares.getD i shareDefault).y *
            ((((List.range shares.length).filter (fun j => j ≠ i)).foldl
                (fun acc j =>
                  (acc * (PRIME - (shares.getD j shareDefault).x)).tmod PRIME) 1 *
              modInverse
                (((List.range shares.length).filter (fun j => j ≠ i)).foldl
                  (fun acc j =>
                    (acc * (((shares.getD i shareDefault).x -
                      (shares.getD j shareDefault).x + PRIME).tmod PRIME)).tmod PRIME) 1)
                PRIME).tmod PRIME)).tmod PRIME)
        0 := by
  simp only [shamirReconstruct]
  congr 1
  funext secret i
  rw [foldl_skip
    (fun (nd : Int × Int) j =>
      ((nd.1 * (PRIME - (shares.getD j shareDefault).x)).tmod PRIME,
       (nd.2 * (((shares.getD i shareDefault).x -
         (shares.getD j shareDefault).x + PRIME).tmod PRIME)).tmod PRIME)) i,
    foldl_pair_split
      (fun acc j => (acc * (PRIME - (shares.getD j shareDefault).x)).tmod PRIME)
      (fun acc j => (acc * (((shares.getD i shareDefault).x -
        (shares.getD j shareDefault).x + PRIME).tmod PRIME)).tmod PRIME)]

theorem getD_mem_of_lt (shares : List SecretShare) {j : Nat} (hj : j < shares.length) :
    shares.getD j shareDefault ∈ shares := by
  rw [List.getD_eq_getElem?_getD, List.getElem?_eq_getElem hj]
  exact List.getElem_mem hj

theorem shamirReconstruct_cast_sum (shares : List SecretShare)
    (hx : ∀ s ∈ shares, 0 ≤ s.x ∧ s.x ≤ PRIME)
    (hy : ∀ s ∈ shares, 0 ≤ s.y)
    (hinj : Set.InjOn (fun j => ((shares.getD j shareDefault).x : Fp))
      (Finset.range shares.length)) :
    ((shamirReconstruct shares : Int) : Fp) =
      ∑ i in Finset.range shares.length,
        ((shares.getD i shareDefault).y : Fp) *
          ((∏ j in (Finset.range shares.length).erase i,
              (0 - ((shares.getD j shareDefault).x : Fp))) *
            (∏ j in (Finset.range shares.length).erase i,
              (((shares.getD i shareDefault).x : Fp) -
                ((shares.getD j shareDefault).x : Fp)))⁻¹) ∧
      (0 ≤ shamirReconstruct shares ∧ shamirReconstruct shares < PRIME) := by
  have hfilter_lt : ∀ i : Nat, ∀ j ∈ (List.range shares.length).filter (fun j => j ≠ i),
      j < shares.length := by
    intro i j hj
    exact List.mem_range.mp (List.mem_of_mem_filter hj)
  have hnum_nonneg : ∀ i : Nat, ∀ j ∈ (List.range shares.length).filter (fun j => j ≠ i),
      0 ≤ PRIME - (shares.getD j shareDefault).x := by
    intro i j hj
    have h := (hx _ (getD_mem_of_lt shares (hfilter_lt i j hj))).2
    omega
  have hden_nonneg : ∀ i : Nat, i < shares.length →
      ∀ j ∈ (List.range shares.length).filter (fun j => j ≠ i),
      0 ≤ (((shares.getD i shareDefault).x -
        (shares.getD j shareDefault).x + PRIME).tmod PRIME) := by
    intro i hi j hj
    refine Int.tmod_nonneg PRIME ?_
    have h1 := (hx _ (getD_mem_of_lt shares hi)).1
    have h2 := (hx _ (getD_mem_of_lt shares (hfilter_lt i j hj))).2
    omega
  have hnum_bounds : ∀ i : Nat,
      0 ≤ ((List.range shares.length).filter (fun j => j ≠ i)).foldl
        (fun acc j => (acc * (PRIME - (shares.getD j shareDefault).x)).tmod PRIME) 1 ∧
      ((List.range shares.length).filter (fun j => j ≠ i)).foldl
        (fun acc j => (acc * (PRIME - (shares.getD j shareDefault).x)).tmod PRIME) 1 < PRIME := by
    intro i
    exact foldl_mul_tmod_bounds _ _ 1 (by norm_num) (by rw [PRIME]; norm_num) (hnum_nonneg i)
  have hden_bounds : ∀ i : Nat, i < shares.length →
      0 ≤ ((List.range shares.length).filter (fun j => j ≠ i)).foldl
        (fun acc j => (acc * (((shares.getD i shareDefault).x -
          (shares.getD j shareDefault).x + PRIME).tmod PRIME)).tmod PRIME) 1 ∧
      ((List.range shares.length).filter (fun j => j ≠ i)).foldl
        (fun acc j => (acc * (((shares.getD i shareDefault).x -
          (shares.getD j shareDefault).x + PRIME).tmod PRIME)).tmod PRIME) 1 < PRIME := by
    intro i hi
    exact foldl_mul_tmod_bounds _ _ 1 (by norm_num) (by rw [PRIME]; norm_num)
      (hden_nonneg i hi)
  have hw_nonneg : ∀ i ∈ List.range shares.length,
      0 ≤ (shares.getD i shareDefault).y *
        ((((List.range shares.length).filter (fun j => j ≠ i)).foldl
            (fun acc j => (acc * (PRIME - (shares.getD j shareDefault).x)).tmod PRIME) 1 *
          modInverse
            (((List.range shares.length).filter (fun j => j ≠ i)).foldl
              (fun acc j => (acc * (((shares.getD i shareDefault).x -
                (shares.getD j shareDefault).x + PRIME).tmod PRIME)).tmod PRIME) 1)
            PRIME).tmod PRIME) := by
    intro i hi
    have hil := List.mem_range.mp hi
    refine mul_nonneg (hy _ (getD_mem_of_lt shares hil)) ?_
    refine Int.tmod_nonneg PRIME (mul_nonneg (hnum_bounds i).1 ?_)
    exact (modInverse_bounds _ (hden_bounds i hil).1).1
  constructor
  · rw [shamirReconstruct_eq_foldl, foldl_add_tmod_cast, list_range_map_sum]
    rw [Int.cast_zero, zero_add]
    refine Finset.sum_congr rfl ?_
    intro i hi
    have hil := Finset.mem_range.mp hi
    push_cast
    rw [intCast_tmod_prime]
    push_cast
    congr 1
    have hnum_cast : ((((List.range shares.length).filter (fun j => j ≠ i)).foldl
        (fun acc j => (acc * (PRIME - (shares.getD j shareDefault).x)).tmod PRIME) 1 :
          Int) : Fp) =
        ∏ j in (Finset.range shares.length).erase i,
          (0 - ((shares.getD j shareDefault).x : Fp)) := by
      rw [foldl_mul_tmod_cast, range_erase_prod
        (fun j => ((PRIME - (shares.getD j shareDefault).x : Int) : Fp)) shares.length i]
      rw [Int.cast_one, one_mul]
      refine Finset.prod_congr rfl ?_
      intro j _
      push_cast
      rw [PRIME_cast_eq_zero]
    have hden_cast : ((((List.range shares.length).filter (fun j => j ≠ i)).foldl
        (fun acc j => (acc * (((shares.getD i shareDefault).x -
          (shares.getD j shareDefault).x + PRIME).tmod PRIME)).tmod PRIME) 1 :
          Int) : Fp) =
        ∏ j in (Finset.range shares.length).erase i,
          (((shares.getD i shareDefault).x : Fp) -
            ((shares.getD j shareDefault).x : Fp)) := by
      rw [foldl_mul_tmod_cast, range_erase_prod
        (fun j => ((((shares.getD i shareDefault).x -
          (shares.getD j shareDefault).x + PRIME).tmod PRIME : Int) : Fp)) shares.length i]
      rw [Int.cast_one, one_mul]
      refine Finset.prod_congr rfl ?_
      intro j _
      rw [intCast_tmod_prime]
      push_cast
      rw [PRIME_cast_eq_zero]
      ring
    have hden_ne : ((((List.range shares.length).filter (fun j => j ≠ i)).foldl
        (fun acc j => (acc * (((shares.getD i shareDefault).x -
          (shares.getD j shareDefault).x + PRIME).tmod PRIME)).tmod PRIME) 1 :
          Int) : Fp) ≠ 0 := by
      rw [hden_cast]
      refine Finset.prod_ne_zero_iff.mpr ?_
      intro j hj
      refine sub_ne_zero.mpr ?_
      intro hveq
      have hji : j ≠ i := (Finset.mem_erase.mp hj).1
      have hjmem : j ∈ Finset.range shares.length := (Finset.mem_erase.mp hj).2
      exact hji (hinj hjmem hi hveq.symm)
    rw [modInverse_cast _ hden_ne, hnum_cast, hden_cast]
  · rw [shamirReconstruct_eq_foldl]
    exact foldl_add_tmod_bounds _ _ 0 (le_refl 0) PRIME_pos hw_nonneg

-- ---------------------------------------------------------------------------
-- Lagrange interpolation at zero
-- ---------------------------------------------------------------------------

theorem eval_zero_interpolate (n : Nat) (v r : Nat → Fp) :
    Polynomial.eval 0 (Lagrange.interpolate (Finset.range n) v r) =
      ∑ i in Finset.range n, r i *
        ((∏ j in (Finset.range n).erase i, (0 - v j)) *
          (∏ j in (Finset.range n).erase i, (v i - v j))⁻¹) := by
  rw [Lagrange.interpolate_apply, Polynomial.eval_finset_sum]
  refine Finset.sum_congr rfl ?_
  intro i _
  rw [Polynomial.eval_mul, Polynomial.eval_C]
  congr 1
  rw [Lagrange.basis, Polynomial.eval_prod, ← Finset.prod_inv_distrib,
    ← Finset.prod_mul_distrib]
  refine Finset.prod_congr rfl ?_
  intro j _
  rw [Lagrange.basisDivisor, Polynomial.eval_mul, Polynomial.eval_C,
    Polynomial.eval_sub, Polynomial.eval_X, Polynomial.eval_C]
  ring

theorem shamirReconstruct_eq_eval (shares : List SecretShare) (f : Polynomial Fp)
    (hdeg : f.degree < shares.length)
    (hx : ∀ s ∈ shares, 0 ≤ s.x ∧ s.x ≤ PRIME)
    (hy : ∀ s ∈ shares, 0 ≤ s.y)
    (hval : ∀ i ∈ Finset.range shares.length,
      ((shares.getD i shareDefault).y : Fp) =
        f.eval ((shares.getD i shareDefault).x : Fp))
    (hinj : Set.InjOn (fun j => ((shares.getD j shareDefault).x : Fp))
      (Finset.range shares.length)) :
    ((shamirReconstruct shares : Int) : Fp) = f.eval 0 ∧
      (0 ≤ shamirReconstruct shares ∧ shamirReconstruct shares < PRIME) := by
  obtain ⟨hcast, hbounds⟩ := shamirReconstruct_cast_sum shares hx hy hinj
  refine ⟨?_, hbounds⟩
  rw [hcast, ← eval_zero_interpolate shares.length
    (fun j => ((shares.getD j shareDefault).x : Fp))
    (fun i => ((shares.getD i shareDefault).y : Fp))]
  have hfi : f = Lagrange.interpolate (Finset.range shares.length)
      (fun j => ((shares.getD j shareDefault).x : Fp))
      (fun i => f.eval ((shares.getD i shareDefault).x : Fp)) :=
    Lagrange.eq_interpolate hinj (by simpa using hdeg)
  rw [Lagrange.interpolate_eq_of_values_eq_on _ _ hval, ← hfi]

-- ---------------------------------------------------------------------------
-- The sharing polynomial determined by the coefficient list
-- ---------------------------------------------------------------------------

/-- The polynomial over GF(2^31 - 1) whose coefficients are the (reduced)
entries of the coefficient list built by `shamirSplit`. -/
noncomputable def coeffsPoly (c : List Int) : Polynomial Fp :=
  ∑ i : Fin c.length, Polynomial.C ((c.get i : Int) : Fp) * Polynomial.X ^ (i : Nat)

theorem coeffsPoly_degree_lt (c : List Int) :
    (coeffsPoly c).degree < c.length :=
  Polynomial.degree_sum_fin_lt _

theorem coeffsPoly_eval (c : List Int) (x : Fp) :
    (coeffsPoly c).eval x =
      ∑ i in Finset.range c.length, ((c.getD i 0 : Int) : Fp) * x ^ i := by
  rw [coeffsPoly, Polynomial.eval_finset_sum]
  rw [← Fin.sum_univ_eq_sum_range
    (fun i => ((c.getD i 0 : Int) : Fp) * x ^ i) c.length]
  refine Finset.sum_congr rfl ?_
  intro i _
  rw [Polynomial.eval_mul, Polynomial.eval_C, Polynomial.eval_pow, Polynomial.eval_X]
  congr 2
  rw [List.getD_eq_getElem?_getD, List.getElem?_eq_getElem i.isLt]
  simp

theorem coeffsPoly_eval_zero (c : List Int) (hc : c ≠ []) :
    (coeffsPoly c).eval 0 = ((c.getD 0 0 : Int) : Fp) := by
  rw [coeffsPoly_eval]
  have hlen : 0 < c.length := List.length_pos.mpr hc
  rw [Finset.sum_eq_single 0]
  · rw [pow_zero, mul_one]
  · intro i _ hine
    rw [zero_pow hine, mul_zero]
  · intro h
    exact absurd (Finset.mem_range.mpr hlen) h

-- ---------------------------------------------------------------------------
-- The split shares lie on the polynomial
-- ---------------------------------------------------------------------------

theorem shamirEvalAux_cast (x : Int) :
    ∀ (c : List Int) (k : Nat) (y : Int),
      ((shamirEvalAux c x k y : Int) : Fp) =
        (y : Fp) + ∑ i in Finset.range c.length,
          ((c.getD i 0 : Int) : Fp) * (x : Fp) ^ (k + i) := by
  intro c
  induction c with
  | nil => intro k y; simp [shamirEvalAux]
  | cons c0 rest ih =>
    intro k y
    rw [shamirEvalAux, ih, intCast_tmod_prime]
    push_cast
    rw [modPow_cast]
    rw [List.length_cons, Finset.sum_range_succ']
    have h0 : (((c0 :: rest).getD 0 0 : Int) : Fp) * (x : Fp) ^ (k + 0) =
        (c0 : Fp) * (x : Fp) ^ k := by
      rw [List.getD_cons_zero, add_zero]
    have hs : ∀ i, (((c0 :: rest).getD (i + 1) 0 : Int) : Fp) * (x : Fp) ^ (k + (i + 1)) =
        ((rest.getD i 0 : Int) : Fp) * (x : Fp) ^ ((k + 1) + i) := by
      intro i
      rw [List.getD_cons_succ]
      congr 2
      omega
    rw [h0]
    rw [Finset.sum_congr rfl (fun i _ => hs i)]
    ring

theorem shamirEvalAux_bounds (x : Int) (hx : 0 ≤ x) :
    ∀ (c : List Int) (k : Nat) (y : Int), 0 ≤ y → y < PRIME →
      (∀ ci ∈ c, 0 ≤ ci) →
      0 ≤ shamirEvalAux c x k y ∧ shamirEvalAux c x k y < PRIME := by
  intro c
  induction c with
  | nil => intro k y h0 hp _; exact ⟨h0, hp⟩
  | cons c0 rest ih =>
    intro k y h0 _ hc
    rw [shamirEvalAux]
    refine ih _ _ ?_ ?_ (fun ci hci => hc ci (List.mem_cons_of_mem c0 hci))
    · refine Int.tmod_nonneg PRIME (add_nonneg h0 ?_)
      exact mul_nonneg (hc c0 (List.mem_cons_self c0 rest))
        (modPow_bounds x k hx).1
    · exact Int.tmod_lt_of_pos _ PRIME_pos

theorem shamirEval_eq_poly (c : List Int) (x : Int) :
    ((shamirEvalAux c x 0 0 : Int) : Fp) = (coeffsPoly c).eval (x : Fp) := by
  rw [shamirEvalAux_cast x c 0 0, coeffsPoly_eval, Int.cast_zero, zero_add]
  refine Finset.sum_congr rfl ?_
  intro i _
  rw [zero_add]

-- ---------------------------------------------------------------------------
-- Facts about shamirSplit and its coefficient list
-- ---------------------------------------------------------------------------

theorem shamirCoeffs_ne_nil (secret : Int) (T : Nat) (rand : Nat → Nat) :
    shamirCoeffs secret T rand ≠ [] := by
  rw [shamirCoeffs]
  exact List.cons_ne_nil _ _

theorem shamirCoeffs_length (secret : Int) {T : Nat} (rand : Nat → Nat) (hT : 1 ≤ T) :
    (shamirCoeffs secret T rand).length = T := by
  rw [shamirCoeffs, List.length_cons, List.length_map, List.length_range]
  omega

theorem shamirCoeffs_nonneg (secret : Int) (T : Nat) (rand : Nat → Nat)
    (hsec : 0 ≤ secret) : ∀ ci ∈ shamirCoeffs secret T rand, 0 ≤ ci := by
  intro ci hci
  rw [shamirCoeffs] at hci
  rcases List.mem_cons.mp hci with rfl | hm
  · exact Int.tmod_nonneg PRIME hsec
  · obtain ⟨j, _, rfl⟩ := List.mem_map.mp hm
    exact Int.tmod_nonneg PRIME (by positivity)

theorem shamirCoeffs_getD_zero (secret : Int) (T : Nat) (rand : Nat → Nat) :
    (shamirCoeffs secret T rand).getD 0 0 = secret.tmod PRIME := by
  rw [shamirCoeffs, List.getD_cons_zero]

theorem shamirSplit_getD (secret : Int) (T N : Nat) (rand : Nat → Nat) {k : Nat}
    (hk : k < N) :
    (shamirSplit secret T N rand).getD k shareDefault =
      { x := (k : Int) + 1
        y := shamirEvalAux (shamirCoeffs secret T rand) ((k : Int) + 1) 0 0 } := by
  rw [shamirSplit, getD_map_range _ shareDefault hk]

theorem getD_nodup_inj {idxs : List Nat} (hnodup : idxs.Nodup) {i j : Nat}
    (hi : i < idxs.length) (hj : j < idxs.length)
    (h : idxs.getD i 0 = idxs.getD j 0) : i = j := by
  rw [List.getD_eq_getElem?_getD, List.getElem?_eq_getElem hi,
    List.getD_eq_getElem?_getD, List.getElem?_eq_getElem hj] at h
  exact (List.Nodup.getElem_inj_iff hnodup).mp (by simpa using h)

theorem getD_mem_nat {idxs : List Nat} {j : Nat} (hj : j < idxs.length) :
    idxs.getD j 0 ∈ idxs := by
  rw [List.getD_eq_getElem?_getD, List.getElem?_eq_getElem hj]
  exact List.getElem_mem hj

-- ---------------------------------------------------------------------------
-- Core reconstruction correctness for arbitrary share subsets
-- ---------------------------------------------------------------------------

set_option maxHeartbeats 2000000 in
theorem shamirSplit_reconstruct_core (secret : Int) (T N : Nat) (rand : Nat → Nat)
    (hsec : 0 ≤ secret) (hT : 1 ≤ T) (hNp : (N : Int) ≤ PRIME)
    (idxs : List Nat) (hlen : idxs.length = T) (hnodup : idxs.Nodup)
    (hbound : ∀ k ∈ idxs, k < N) :
    shamirReconstruct (idxs.map (fun k =>
      (shamirSplit secret T N rand).getD k shareDefault)) = secret.tmod PRIME := by
  have hsellen : (idxs.map (fun k =>
      (shamirSplit secret T N rand).getD k shareDefault)).length = T := by
    rw [List.length_map, hlen]
  have hselget : ∀ j, j < T →
      (idxs.map (fun k => (shamirSplit secret T N rand).getD k shareDefault)).getD j
          shareDefault =
        { x := ((idxs.getD j 0 : Nat) : Int) + 1
          y := shamirEvalAux (shamirCoeffs secret T rand)
            (((idxs.getD j 0 : Nat) : Int) + 1) 0 0 } := by
    intro j hj
    rw [getD_map_of_lt _ idxs (by omega) shareDefault 0]
    exact shamirSplit_getD secret T N rand (hbound _ (getD_mem_nat (by omega)))
  have hxmem : ∀ s ∈ idxs.map (fun k =>
      (shamirSplit secret T N rand).getD k shareDefault), 0 ≤ s.x ∧ s.x ≤ PRIME := by
    intro s hs
    obtain ⟨k, hk, rfl⟩ := List.mem_map.mp hs
    rw [shamirSplit_getD secret T N rand (hbound k hk)]
    have hkN : (k : Int) < (N : Int) := by exact_mod_cast hbound k hk
    constructor
    · show (0 : Int) ≤ (k : Int) + 1
      positivity
    · show (k : Int) + 1 ≤ PRIME
      omega
  have hymem : ∀ s ∈ idxs.map (fun k =>
      (shamirSplit secret T N rand).getD k shareDefault), 0 ≤ s.y := by
    intro s hs
    obtain ⟨k, hk, rfl⟩ := List.mem_map.mp hs
    rw [shamirSplit_getD secret T N rand (hbound k hk)]
    exact (shamirEvalAux_bounds ((k : Int) + 1) (by positivity) _ 0 0 (le_refl 0)
      PRIME_pos (shamirCoeffs_nonneg secret T rand hsec)).1
  have hval : ∀ i ∈ Finset.range (idxs.map (fun k =>
      (shamirSplit secret T N rand).getD k shareDefault)).length,
      (((idxs.map (fun k => (shamirSplit secret T N rand).getD k shareDefault)).getD i
          shareDefault).y : Fp) =
        (coeffsPoly (shamirCoeffs secret T rand)).eval
          (((idxs.map (fun k => (shamirSplit secret T N rand).getD k
            shareDefault)).getD i shareDefault).x : Fp) := by
    intro i hi
    rw [hselget i (by rw [hsellen] at hi; exact Finset.mem_range.mp hi)]
    exact shamirEval_eq_poly (shamirCoeffs secret T rand) _
  have hinj : Set.InjOn (fun j =>
      (((idxs.map (fun k => (shamirSplit secret T N rand).getD k
        shareDefault)).getD j shareDefault).x : Fp))
      (Finset.range (idxs.map (fun k =>
        (shamirSplit secret T N rand).getD k shareDefault)).length) := by
    intro i hi j hj heq
    rw [hsellen] at hi hj
    have hiT := Finset.mem_range.mp hi
    have hjT := Finset.mem_range.mp hj
    simp only [hselget i hiT, hselget j hjT] at heq
    have hik : ((idxs.getD i 0 : Nat) : Int) < (N : Int) := by
      exact_mod_cast hbound _ (getD_mem_nat (by omega))
    have hjk : ((idxs.getD j 0 : Nat) : Int) < (N : Int) := by
      exact_mod_cast hbound _ (getD_mem_nat (by omega))
    have heq2 : (((idxs.getD i 0 : Nat) : Int) : Fp) =
        (((idxs.getD j 0 : Nat) : Int) : Fp) := by
      have h1 : (((idxs.getD i 0 : Nat) : Int) : Fp) + 1 =
          (((idxs.getD j 0 : Nat) : Int) : Fp) + 1 := by
        push_cast at heq ⊢
        exact heq
      exact add_right_cancel h1
    have heqInt : ((idxs.getD i 0 : Nat) : Int) = ((idxs.getD j 0 : Nat) : Int) :=
      int_eq_of_fp_eq (by positivity) (by omega) (by positivity) (by omega) heq2
    exact getD_nodup_inj hnodup (by omega) (by omega) (by exact_mod_cast heqInt)
  have hdeg : (coeffsPoly (shamirCoeffs secret T rand)).degree <
      (idxs.map (fun k => (shamirSplit secret T N rand).getD k
        shareDefault)).length := by
    rw [hsellen]
    have h := coeffsPoly_degree_lt (shamirCoeffs secret T rand)
    rwa [shamirCoeffs_length secret rand hT] at h
  obtain ⟨hcast, hnn, hlt⟩ := shamirReconstruct_eq_eval _
    (coeffsPoly (shamirCoeffs secret T rand)) hdeg hxmem hymem hval hinj
  have hc0 : (coeffsPoly (shamirCoeffs secret T rand)).eval 0 =
      ((secret.tmod PRIME : Int) : Fp) := by
    rw [coeffsPoly_eval_zero _ (shamirCoeffs_ne_nil secret T rand),
      shamirCoeffs_getD_zero]
  refine int_eq_of_fp_eq hnn hlt (Int.tmod_nonneg PRIME hsec)
    (Int.tmod_lt_of_pos secret PRIME_pos) ?_
  rw [hcast, hc0]

-- ---------------------------------------------------------------------------
-- C1: subset reconstruction of shamirSplit
-- ---------------------------------------------------------------------------

/-- C1 (amended): for every secret in [0, prime), every threshold T and share
count N with 1 ≤ T ≤ N and N ≤ prime, reconstructing from any T-element
subset of the shares produced by `shamirSplit(secret, T, N)` - given by any
duplicate-free list of share indices, contiguous or not, in any order -
yields exactly the original secret; in particular every such subset yields the
same value.  (The claim as frozen, without the bound N ≤ prime, fails: see the
counterexample with N = prime + 1, where two share x-coordinates coincide
modulo the prime.) -/
theorem shamirSplit_reconstruct_spec (secret : Int) (T N : Nat) (rand : Nat → Nat)
    (hsec0 : 0 ≤ secret) (hsec1 : secret < PRIME)
    (hT : 1 ≤ T) (hTN : T ≤ N) (hNp : (N : Int) ≤ PRIME)
    (idxs : List Nat) (hlen : idxs.length = T) (hnodup : idxs.Nodup)
    (hbound : ∀ k ∈ idxs, k < N) :
    shamirReconstruct (idxs.map (fun k =>
      (shamirSplit secret T N rand).getD k shareDefault)) = secret := by
  rw [shamirSplit_reconstruct_core secret T N rand hsec0 hT hNp idxs hlen hnodup hbound]
  exact tmod_small hsec0 (by rw [PRIME] at hsec1; exact hsec1)

/-- Witness for the amended C1: secret 42 split 3-of-5, reconstructed from the
non-contiguous subset of shares 1, 3 and 5. -/
theorem shamirSplit_reconstruct_spec_witness :
    shamirReconstruct ([0, 2, 4].map (fun k =>
      (shamirSplit 42 3 5 (fun i => 1000003 * i + 17)).getD k shareDefault)) = 42 := by
  exact shamirSplit_reconstruct_spec 42 3 5 (fun i => 1000003 * i + 17)
    (by norm_num) (by rw [PRIME]; norm_num) (by norm_num) (by norm_num)
    (by rw [PRIME]; norm_num) [0, 2, 4] (by norm_num) (by decide) (by decide)

-- ---------------------------------------------------------------------------
-- Evaluation helpers for the N > prime counterexamples
-- ---------------------------------------------------------------------------

theorem modPowAux_base_zero :
    ∀ (e : Nat), e ≠ 0 → ∀ r : Int, modPowAux r 0 e PRIME = 0 := by
  intro e
  induction e using Nat.strong_induction_on with
  | _ e ih =>
    intro he r
    rw [modPowAux, dif_neg he]
    have hb : ((0 : Int) * 0).tmod PRIME = 0 := by
      rw [mul_zero]
      exact Int.zero_tmod PRIME
    rw [hb]
    by_cases h2 : e / 2 = 0
    · have he1 : e = 1 := by omega
      subst he1
      rw [modPowAux]
      rw [dif_pos (by norm_num : (1 : Nat) / 2 = 0)]
      rw [if_pos (by norm_num : (1 : Nat) % 2 = 1)]
      rw [mul_zero]
      exact Int.zero_tmod PRIME
    · exact ih (e / 2) (Nat.div_lt_self (Nat.pos_of_ne_zero he) one_lt_two) h2 _

theorem modInverse_zero : modInverse 0 PRIME = 0 := by
  rw [modInverse, modPow, Int.zero_tmod]
  rw [show (PRIME - 2).toNat = 2147483645 from by rw [PRIME]; decide]
  exact modPowAux_base_zero 2147483645 (by norm_num) 1

theorem shamirReconstruct_pair (s1 s2 : SecretShare) :
    shamirReconstruct [s1, s2] =
      (((0 + s1.y * (((1 * (PRIME - s2.x)).tmod PRIME *
          modInverse ((1 * ((s1.x - s2.x + PRIME).tmod PRIME)).tmod PRIME)
            PRIME).tmod PRIME)).tmod PRIME) + s2.y *
        (((1 * (PRIME - s1.x)).tmod PRIME *
          modInverse ((1 * ((s2.x - s1.x + PRIME).tmod PRIME)).tmod PRIME)
            PRIME).tmod PRIME)).tmod PRIME := by
  rfl

theorem shamirEvalAux_c0_zero (c0 x : Int) (h0 : 0 ≤ c0) (h1 : c0 < 2147483647) :
    shamirEvalAux [c0, 0] x 0 0 = c0 := by
  simp only [shamirEvalAux]
  rw [modPow_exp_zero, zero_mul, add_zero, mul_one, zero_add,
    tmod_small h0 h1, tmod_small h0 h1]

theorem shamirSplit_share_at (secret c0 : Int) (N : Nat) (h0 : 0 ≤ c0)
    (h1 : c0 < 2147483647) (hc : secret.tmod PRIME = c0) {k : Nat} (hk : k < N) :
    (shamirSplit secret 2 N (fun _ => 0)).getD k shareDefault =
      { x := (k : Int) + 1, y := c0 } := by
  rw [shamirSplit_getD secret 2 N (fun _ => 0) hk, shamirCoeffs_zero_rand, hc]
  have hrep : List.replicate (2 - 1) (0 : Int) = [0] := by rfl
  rw [hrep, shamirEvalAux_c0_zero c0 _ h0 h1]

theorem reconstruct_colliding_pair (c0 : Int) (hc : 0 ≤ c0) :
    shamirReconstruct [⟨1, c0⟩, ⟨2147483648, c0⟩] = 0 := by
  rw [shamirReconstruct_pair]
  show (((0 + c0 * (((1 * (PRIME - 2147483648)).tmod PRIME *
      modInverse ((1 * (((1 : Int) - 2147483648 + PRIME).tmod PRIME)).tmod PRIME)
        PRIME).tmod PRIME)).tmod PRIME) + c0 *
    (((1 * (PRIME - 1)).tmod PRIME *
      modInverse ((1 * (((2147483648 : Int) - 1 + PRIME).tmod PRIME)).tmod PRIME)
        PRIME).tmod PRIME)).tmod PRIME = 0
  rw [show ((1 : Int) * (((1 : Int) - 2147483648 + PRIME).tmod PRIME)).tmod PRIME = 0
      from by rw [PRIME]; decide,
    show ((1 : Int) * (((2147483648 : Int) - 1 + PRIME).tmod PRIME)).tmod PRIME = 0
      from by rw [PRIME]; decide,
    modInverse_zero]
  rw [mul_zero, Int.zero_tmod, mul_zero, mul_zero, Int.zero_tmod, mul_zero,
    add_zero, add_zero, Int.zero_tmod, Int.zero_tmod]

/-- C1 (counterexample): with secret 42 in [0, prime), T = 2 and
N = prime + 1 = 2147483648 (so 1 ≤ T ≤ N), the 2-element subset consisting of
shares 1 and 2147483648 of `shamirSplit(42, 2, N)` reconstructs to 0, not 42:
the two shares have x = 1 and x = 2147483648 ≡ 1 (mod prime), so the claim as
stated, quantified over every N ≥ T, is false. -/
theorem shamirSplit_reconstruct_counterexample :
    (shamirSplit 42 2 2147483648 (fun _ => 0)).getD 0 shareDefault = ⟨1, 42⟩ ∧
    (shamirSplit 42 2 2147483648 (fun _ => 0)).getD 2147483647 shareDefault =
      ⟨2147483648, 42⟩ ∧
    shamirReconstruct [⟨1, 42⟩, ⟨2147483648, 42⟩] = 0 ∧ (0 : Int) ≠ 42 := by
  refine ⟨?_, ?_, reconstruct_colliding_pair 42 (by norm_num), by norm_num⟩
  · rw [shamirSplit_share_at 42 42 2147483648 (by norm_num)
      (by norm_num) (by rw [PRIME]; decide) (by norm_num)]
    norm_num
  · rw [shamirSplit_share_at 42 42 2147483648 (by norm_num)
      (by norm_num) (by rw [PRIME]; decide) (by norm_num)]
    norm_num

-- ---------------------------------------------------------------------------
-- C10: out-of-range secrets are reduced mod the prime, never rejected
-- ---------------------------------------------------------------------------

/-- C10 (amended): for every non-negative integer secret, including secrets
≥ 2^31 - 1, `shamirSplit` encodes only `secret mod (2^31 - 1)` in the
polynomial's constant term (the split output is identical to that of the
reduced secret), and reconstructing any T-element subset of its shares (for
1 ≤ T ≤ N with N ≤ prime) yields `secret mod (2^31 - 1)` rather than the
original secret - out-of-range secrets are silently reduced, never rejected.
(As frozen, with N unbounded, the reconstruction part fails for N > prime:
see the counterexample.) -/
theorem shamirSplit_mod_reduction_spec (secret : Int) (T N : Nat) (rand : Nat → Nat)
    (hsec : 0 ≤ secret) (hT : 1 ≤ T) (hTN : T ≤ N) (hNp : (N : Int) ≤ PRIME)
    (idxs : List Nat) (hlen : idxs.length = T) (hnodup : idxs.Nodup)
    (hbound : ∀ k ∈ idxs, k < N) :
    (shamirCoeffs secret T rand).getD 0 0 = secret.tmod PRIME ∧
    shamirSplit secret T N rand = shamirSplit (secret.tmod PRIME) T N rand ∧
    shamirReconstruct (idxs.map (fun k =>
      (shamirSplit secret T N rand).getD k shareDefault)) = secret.tmod PRIME := by
  refine ⟨shamirCoeffs_getD_zero secret T rand, ?_, ?_⟩
  · have hco : shamirCoeffs secret T rand = shamirCoeffs (secret.tmod PRIME) T rand := by
      rw [shamirCoeffs, shamirCoeffs, tmod_idem secret PRIME PRIME_pos]
    rw [shamirSplit, shamirSplit, hco]
  · exact shamirSplit_reconstruct_core secret T N rand hsec hT hNp idxs hlen hnodup
      hbound

/-- Witness for the amended C10: the out-of-range secret prime + 5 splits and
reconstructs (2-of-3, shares 1 and 3) to 5 = (prime + 5) mod prime. -/
theorem shamirSplit_mod_reduction_spec_witness :
    shamirReconstruct ([0, 2].map (fun k =>
      (shamirSplit 2147483652 2 3 (fun i => 7 * i + 1)).getD k shareDefault)) =
      (2147483652 : Int).tmod PRIME ∧
    (2147483652 : Int).tmod PRIME = 5 := by
  constructor
  · exact (shamirSplit_mod_reduction_spec 2147483652 2 3 (fun i => 7 * i + 1)
      (by norm_num) (by norm_num) (by norm_num) (by rw [PRIME]; norm_num)
      [0, 2] (by norm_num) (by decide) (by decide)).2.2
  · rw [PRIME]
    decide

/-- C10 (counterexample): for the out-of-range secret prime + 5 with T = 2 and
N = prime + 1, the subset of shares 1 and 2147483648 reconstructs to 0, not to
(prime + 5) mod prime = 5, so the reconstruction part of the claim as frozen
(with N unbounded) is false. -/
theorem shamirSplit_mod_reduction_counterexample :
    (shamirSplit 2147483652 2 2147483648 (fun _ => 0)).getD 0 shareDefault =
      ⟨1, 5⟩ ∧
    (shamirSplit 2147483652 2 2147483648 (fun _ => 0)).getD 2147483647
      shareDefault = ⟨2147483648, 5⟩ ∧
    shamirReconstruct [⟨1, 5⟩, ⟨2147483648, 5⟩] = 0 ∧
    (2147483652 : Int).tmod PRIME = 5 ∧ (0 : Int) ≠ 5 := by
  refine ⟨?_, ?_, reconstruct_colliding_pair 5 (by norm_num),
    by rw [PRIME]; decide, by norm_num⟩
  · rw [shamirSplit_share_at 2147483652 5 2147483648 (by norm_num)
      (by norm_num) (by rw [PRIME]; decide) (by norm_num)]
    norm_num
  · rw [shamirSplit_share_at 2147483652 5 2147483648 (by norm_num)
      (by norm_num) (by rw [PRIME]; decide) (by norm_num)]
    norm_num
